import Mathlib

/-!
Shallow embedding of `src/data_processor.py` (balance-log resampling pipeline).

The pipeline reads a CSV table with Japanese column headers `時間` (time) and
`残高` (balance), coerces balances to floats after deleting ASCII space
characters, parses timestamps with the strict pattern `%Y.%m.%d %H:%M:%S`,
drops duplicate and missing timestamps, sorts, builds a 15-minute grid from
the observed minimum to the observed maximum, forward-fills the missing grid
instants, and returns the result; every exception is caught and turned into
the absence signal `None`.

Modelling choices:
* a CSV table is a header (list of column names) plus rows, where each row
  carries the cell text of the two relevant columns (`none` models a missing
  cell, which pandas reads as NaN);
* Python floats are idealised as `PyFloat`: exact rationals plus the special
  values NaN and signed infinity (no claim depends on binary rounding, and
  the pipeline never performs float arithmetic, it only moves values);
* timestamps are seconds on the proleptic Gregorian calendar, as a `Nat`;
* a raised exception is `Except.error ()`; the `try/except` wrapper of
  `process_csv` is `Except.toOption`.
-/

namespace DataProcessor

/-- Python float values as they occur in this pipeline: an exact rational,
NaN, or a signed infinity.  NaN is what `fillna` treats as missing. -/
inductive PyFloat : Type where
  | num : ℚ → PyFloat
  | nan : PyFloat
  | inf : Bool → PyFloat
deriving DecidableEq

/-- A cell of the CSV table: `none` models a missing value (pandas NaN). -/
abbrev Cell := Option String

/-- One input row, restricted to the two columns the pipeline selects. -/
structure Row where
  time : Cell
  bal : Cell
deriving DecidableEq

/-- A CSV table: its header names and its rows. -/
structure CSVFile where
  columns : List String
  rows : List Row
deriving DecidableEq

instance {ε α : Type} [DecidableEq ε] [DecidableEq α] : DecidableEq (Except ε α) := fun a b =>
  match a, b with
  | .ok x, .ok y =>
    match decEq x y with
    | isTrue h => isTrue (by rw [h])
    | isFalse h => isFalse (fun hh => by cases hh; exact h rfl)
  | .error x, .error y =>
    match decEq x y with
    | isTrue h => isTrue (by rw [h])
    | isFalse h => isFalse (fun hh => by cases hh; exact h rfl)
  | .ok _, .error _ => isFalse (fun hh => by cases hh)
  | .error _, .ok _ => isFalse (fun hh => by cases hh)

/-- `astype(str)` on one cell: NaN prints as `"nan"`. -/
def pyStr : Cell → String
  | none => "nan"
  | some s => s

/-- `.str.replace(' ', '')`: delete every occurrence of the one-character
pattern `' '` (an ASCII space, and only that character). -/
def removeSpaces : List Char → List Char
  | [] => []
  | c :: cs => if c = ' ' then removeSpaces cs else c :: removeSpaces cs

/-- Characters stripped by Python `float()` at both ends of the string. -/
def isPyWS (c : Char) : Bool :=
  c = ' ' || c = '\t' || c = '\n' || c = '\r' ||
  c = Char.ofNat 11 || c = Char.ofNat 12 || c = Char.ofNat 160

/-- Strip `isPyWS` characters from both ends. -/
def trimWS (l : List Char) : List Char :=
  ((l.dropWhile isPyWS).reverse.dropWhile isPyWS).reverse

/-- Numeric value of a digit string, most significant first. -/
def digitsVal (ds : List Char) : Nat :=
  ds.foldl (fun a c => 10 * a + (c.toNat - 48)) 0

/-- Grammar of the numeric body accepted by Python `float()` (after the
optional sign): integer digits, optional fraction, optional exponent. -/
def parseNumBody (l : List Char) : Option ℚ :=
  let ip := l.takeWhile Char.isDigit
  let r1 := l.dropWhile Char.isDigit
  let fp := match r1 with
    | '.' :: rest => rest.takeWhile Char.isDigit
    | _ => []
  let r2 := match r1 with
    | '.' :: rest => rest.dropWhile Char.isDigit
    | _ => r1
  if ip.length = 0 ∧ fp.length = 0 then none
  else
    let base : ℚ :=
      if fp.length = 0 then (digitsVal ip : ℚ)
      else (digitsVal ip : ℚ) + (digitsVal fp : ℚ) / (10 : ℚ) ^ fp.length
    match r2 with
    | [] => some base
    | e :: r3 =>
      if e = 'e' ∨ e = 'E' then
        let eneg : Bool := match r3 with
          | '-' :: _ => true
          | _ => false
        let r4 := match r3 with
          | '+' :: rr => rr
          | '-' :: rr => rr
          | rr => rr
        let eds := r4.takeWhile Char.isDigit
        let r5 := r4.dropWhile Char.isDigit
        if eds.length = 0 ∨ r5 ≠ [] then none
        else some (if eneg then base / (10 : ℚ) ^ digitsVal eds
                   else base * (10 : ℚ) ^ digitsVal eds)
      else none

/-- Python `float(s)`: strip outer whitespace, optional sign, then either a
special form (`nan`, `inf`, `infinity`, case-insensitive) or a numeric body.
An unparseable string raises (`Except.error`). -/
def parsePyFloat (s : String) : Except Unit PyFloat :=
  let l := trimWS s.toList
  let neg : Bool := match l with
    | '-' :: _ => true
    | _ => false
  let r := match l with
    | '+' :: rest => rest
    | '-' :: rest => rest
    | rest => rest
  let low := r.map Char.toLower
  if low = "nan".toList then .ok .nan
  else if low = "inf".toList ∨ low = "infinity".toList then .ok (.inf neg)
  else match parseNumBody r with
    | some q => .ok (.num (if neg then -q else q))
    | none => .error ()

/-- Line 89 of the source: `astype(str).str.replace(' ', '').astype(float)`
applied to one balance cell. -/
def balCoerce (c : Cell) : Except Unit PyFloat :=
  parsePyFloat (String.mk (removeSpaces (pyStr c).toList))

/-- Modelled from the spec's words only, for comparison in claim C9: the
claimed coercion that removes *all* whitespace characters, not just `' '`. -/
def balCoerceAllWS (c : Cell) : Except Unit PyFloat :=
  parsePyFloat (String.mk (((pyStr c).toList).filter (fun ch => !isPyWS ch)))

/-- Gregorian leap year. -/
def isLeap (y : Nat) : Bool :=
  y % 4 == 0 && (y % 100 != 0 || y % 400 == 0)

/-- Length of a month in the proleptic Gregorian calendar. -/
def daysInMonth (y m : Nat) : Nat :=
  if m = 2 then (if isLeap y then 29 else 28)
  else if m = 4 ∨ m = 6 ∨ m = 9 ∨ m = 11 then 30
  else 31

/-- Days in the years `1 .. y-1`. -/
def daysBeforeYear (y : Nat) : Nat :=
  365 * (y - 1) + (y - 1) / 4 + (y - 1) / 400 - (y - 1) / 100

/-- Days in the months `1 .. m-1` of year `y`. -/
def daysBeforeMonth (y m : Nat) : Nat :=
  (List.range (m - 1)).foldl (fun a i => a + daysInMonth y (i + 1)) 0

/-- Seconds elapsed since 0001-01-01 00:00:00 of the proleptic Gregorian
calendar — the timestamp representation used throughout. -/
def epochSecs (y mo d h mi s : Nat) : Nat :=
  ((daysBeforeYear y + daysBeforeMonth y mo + (d - 1)) * 24 + h) * 3600 + mi * 60 + s

/-- Consume one character `c` from the front. -/
def expectC (c : Char) : List Char → Option (List Char)
  | x :: xs => if x = c then some xs else none
  | [] => none

/-- Consume a run of decimal digits of length between 1 and `maxLen`
(`strptime`'s numeric directives never read past a delimiter, so the whole
run must fit). -/
def takeCluster (maxLen : Nat) (l : List Char) : Option (Nat × List Char) :=
  let ds := l.takeWhile Char.isDigit
  if ds.length = 0 ∨ maxLen < ds.length then none
  else some (digitsVal ds, l.dropWhile Char.isDigit)

/-- `%Y` is exactly four digits. -/
def takeYear (l : List Char) : Option (Nat × List Char) :=
  let ds := l.takeWhile Char.isDigit
  if ds.length = 4 then some (digitsVal ds, l.dropWhile Char.isDigit)
  else none

/-- `pd.to_datetime(s, format='%Y.%m.%d %H:%M:%S')` on one string: the fixed
literal pattern, with calendar validation; `none` models the raised
`ValueError`. -/
def parseTS (s : String) : Option Nat :=
  (takeYear s.toList).bind fun yr =>
  (expectC '.' yr.2).bind fun r2 =>
  (takeCluster 2 r2).bind fun mo =>
  (expectC '.' mo.2).bind fun r4 =>
  (takeCluster 2 r4).bind fun dy =>
  (expectC ' ' dy.2).bind fun r6 =>
  (takeCluster 2 r6).bind fun hr =>
  (expectC ':' hr.2).bind fun r8 =>
  (takeCluster 2 r8).bind fun mi =>
  (expectC ':' mi.2).bind fun r10 =>
  (takeCluster 2 r10).bind fun sc =>
  if sc.2 = [] ∧ 1 ≤ yr.1 ∧ 1 ≤ mo.1 ∧ mo.1 ≤ 12 ∧ 1 ≤ dy.1 ∧
     dy.1 ≤ daysInMonth yr.1 mo.1 ∧ hr.1 ≤ 23 ∧ mi.1 ≤ 59 ∧ sc.1 ≤ 59
  then some (epochSecs yr.1 mo.1 dy.1 hr.1 mi.1 sc.1)
  else none

/-- `pd.to_datetime` on one cell: NaN becomes NaT (`ok none`); a string that
fails the format raises. -/
def toDT (c : Cell) : Except Unit (Option Nat) :=
  match c with
  | none => .ok none
  | some s =>
    match parseTS s with
    | some t => .ok (some t)
    | none => .error ()

/-- Decidable substring test (Python's `in` on strings). -/
def hasInfix (needle : List Char) : List Char → Bool
  | [] => needle.isEmpty
  | c :: cs => needle.isPrefixOf (c :: cs) || hasInfix needle cs

/-- Line 10 of the source: a summary row has a NaN time field or one whose
text contains `'end of test'`. -/
def is_summary_row (r : Row) : Bool :=
  r.time.isNone || hasInfix "end of test".toList (pyStr r.time).toList

/-- Per-element effectful map over `Except`, stopping at the first raise —
how each column-wide pandas conversion behaves. -/
def mapE (f : α → Except Unit β) : List α → Except Unit (List β)
  | [] => .ok []
  | x :: xs => (f x).bind fun y => (mapE f xs).map fun ys => y :: ys

/-- Line 83: `df[['時間', '残高']]` — raises `KeyError` unless both columns
are present. -/
def selectRows (csv : CSVFile) : Except Unit (List Row) :=
  if "時間" ∈ csv.columns ∧ "残高" ∈ csv.columns then .ok csv.rows
  else .error ()

/-- Balance coercion of one row (the time cell is carried along). -/
def coerceRow (r : Row) : Except Unit (Cell × PyFloat) :=
  (balCoerce r.bal).map (fun b => (r.time, b))

/-- Line 89 applied to the whole column. -/
def coerceBalances (rs : List Row) : Except Unit (List (Cell × PyFloat)) :=
  mapE coerceRow rs

/-- Timestamp parsing of one row (the balance is carried along). -/
def timeRow (p : Cell × PyFloat) : Except Unit (Option Nat × PyFloat) :=
  (toDT p.1).map (fun t => (t, p.2))

/-- Line 92 applied to the whole column. -/
def parseTimes (l : List (Cell × PyFloat)) : Except Unit (List (Option Nat × PyFloat)) :=
  mapE timeRow l

/-- Lines 79–92: select the two columns, coerce balances, parse times. -/
def parsedOf (csv : CSVFile) : Except Unit (List (Option Nat × PyFloat)) :=
  (selectRows csv).bind fun rs => (coerceBalances rs).bind parseTimes

/-- One scan of `drop_duplicates(subset=['DateTime'])`: keep a row only if
its key was not seen earlier. -/
def dedupAux {α β : Type} [DecidableEq α] (seen : List α) :
    List (α × β) → List (α × β)
  | [] => []
  | p :: ps =>
    if p.1 ∈ seen then dedupAux seen ps
    else p :: dedupAux (p.1 :: seen) ps

/-- `drop_duplicates(subset=['DateTime'])`: keep the first occurrence of
each key, in original order. -/
def dedupKeys {α β : Type} [DecidableEq α] (l : List (α × β)) : List (α × β) :=
  dedupAux [] l

/-- `dropna(subset=['DateTime'])`: discard NaT rows, keep the parsed time. -/
def dropNaT (l : List (Option Nat × PyFloat)) : List (Nat × PyFloat) :=
  l.filterMap (fun p => p.1.map (fun t => (t, p.2)))

/-- Ordering on records by timestamp, used by `sort_values('DateTime')`. -/
def leKey (a b : Nat × PyFloat) : Prop := a.1 ≤ b.1

instance : DecidableRel leKey := fun a b => inferInstanceAs (Decidable (a.1 ≤ b.1))

instance : IsTotal (Nat × PyFloat) leKey := ⟨fun a b => Nat.le_total a.1 b.1⟩

instance : IsTrans (Nat × PyFloat) leKey := ⟨fun _ _ _ hab hbc => Nat.le_trans hab hbc⟩

/-- Lines 92–100 as one stage: parse, dedup, dropna, sort. -/
def cleanedOf (csv : CSVFile) : Except Unit (List (Nat × PyFloat)) :=
  (parsedOf csv).map (fun l => List.insertionSort leKey (dropNaT (dedupKeys l)))

/-- `df['DateTime'].min()` (NaT when the column is empty). -/
def listMin : List Nat → Option Nat
  | [] => none
  | t :: ts => some (ts.foldl Nat.min t)

/-- `df['DateTime'].max()` (NaT when the column is empty). -/
def listMax : List Nat → Option Nat
  | [] => none
  | t :: ts => some (ts.foldl Nat.max t)

/-- `pd.date_range(start, end, freq='15T')`: the instants
`start + 900·k` that do not exceed `end` (empty when `end < start`). -/
def dateRange (mn mx : Nat) : List Nat :=
  if mx < mn then []
  else (List.range ((mx - mn) / 900 + 1)).map (fun k => mn + 900 * k)

/-- Lines 110–120: the cleaned rows concatenated with one NaN-balance
placeholder per grid instant absent from the observed timestamps. -/
def concatOf (cle : List (Nat × PyFloat)) (mn mx : Nat) : List (Nat × PyFloat) :=
  cle ++ ((dateRange mn mx).filter
            (fun t => decide (t ∉ cle.map Prod.fst))).map (fun t => (t, PyFloat.nan))

/-- `fillna(method='ffill')`: each NaN takes the nearest preceding non-NaN
value; `acc` is the value carried into the scan. -/
def ffill (acc : PyFloat) : List (Nat × PyFloat) → List (Nat × PyFloat)
  | [] => []
  | (t, v) :: rest =>
    if v = PyFloat.nan then (t, acc) :: ffill acc rest
    else (t, v) :: ffill v rest

/-- Lines 103–130: grid building, gap filling, and the final
duplicate-removal pass (`NaT` min/max — the empty case — raises inside
`pd.date_range`). -/
def gridFill (cle : List (Nat × PyFloat)) : Except Unit (List (Nat × PyFloat)) :=
  match listMin (cle.map Prod.fst), listMax (cle.map Prod.fst) with
  | some mn, some mx =>
    .ok (dedupKeys (ffill PyFloat.nan (List.insertionSort leKey (concatOf cle mn mx))))
  | _, _ => .error ()

/-- The same stage with line 130 (the final `drop_duplicates`) removed, for
the refinement claim C10. -/
def gridFillND (cle : List (Nat × PyFloat)) : Except Unit (List (Nat × PyFloat)) :=
  match listMin (cle.map Prod.fst), listMax (cle.map Prod.fst) with
  | some mn, some mx =>
    .ok (ffill PyFloat.nan (List.insertionSort leKey (concatOf cle mn mx)))
  | _, _ => .error ()

/-- The body of `process_csv`'s `try` block (result in internal form:
timestamps as seconds, balances as `PyFloat`). -/
def processBody (csv : CSVFile) : Except Unit (List (Nat × PyFloat)) :=
  (cleanedOf csv).bind gridFill

/-- `process_csv`: the whole body under `try/except Exception`, so every
raise becomes `None`. -/
def process_csv (csv : CSVFile) : Option (List (Nat × PyFloat)) :=
  (processBody csv).toOption

/-- `process_csv` with the final duplicate-removal pass removed (C10). -/
def process_csvND (csv : CSVFile) : Option (List (Nat × PyFloat)) :=
  ((cleanedOf csv).bind gridFillND).toOption

/-- Zero-padded two-digit rendering (`strftime` `%H`, `%M`, `%S`, …). -/
def pad2 (n : Nat) : String :=
  if n < 10 then "0" ++ toString n else toString n

/-- Zero-padded four-digit rendering (`strftime` `%Y`). -/
def pad4 (n : Nat) : String :=
  if n < 10 then "000" ++ toString n
  else if n < 100 then "00" ++ toString n
  else if n < 1000 then "0" ++ toString n
  else toString n

/-- Recover the year and the day offset inside it from a day count. -/
def yearLoop : Nat → Nat → Nat → Nat × Nat
  | 0, y, d => (y, d)
  | fuel + 1, y, d =>
    let dy := if isLeap y then 366 else 365
    if d < dy then (y, d) else yearLoop fuel (y + 1) (d - dy)

/-- Recover the month and the day offset inside it. -/
def monthLoop : Nat → Nat → Nat → Nat → Nat × Nat
  | 0, _, m, d => (m, d)
  | fuel + 1, y, m, d =>
    let dm := daysInMonth y m
    if d < dm then (m, d) else monthLoop fuel y (m + 1) (d - dm)

/-- `strftime('%Y.%m.%d %H:%M:%S')` on one timestamp (line 133). -/
def formatTS (t : Nat) : String :=
  let days := t / 86400
  let rem := t % 86400
  let yd := yearLoop (days + 1) 1 days
  let md := monthLoop 12 yd.1 1 yd.2
  pad4 yd.1 ++ "." ++ pad2 md.1 ++ "." ++ pad2 (md.2 + 1) ++ " " ++
    pad2 (rem / 3600) ++ ":" ++ pad2 (rem % 3600 / 60) ++ ":" ++ pad2 (rem % 60)

/-- Decimal expansion of a proper fraction `n/d`, at most `fuel` digits. -/
def fracLoop : Nat → Nat → Nat → String
  | 0, _, _ => ""
  | fuel + 1, n, d =>
    if n = 0 then ""
    else toString (n * 10 / d) ++ fracLoop fuel (n * 10 % d) d

/-- Text form of a rational balance as `to_csv` writes a float. -/
def renderQ (q : ℚ) : String :=
  let sign := if q < 0 then "-" else ""
  let n := q.num.natAbs
  let d := q.den
  if d = 1 then sign ++ toString n ++ ".0"
  else sign ++ toString (n / d) ++ "." ++ fracLoop 17 (n % d) d

/-- Text form of a balance cell in the output file; NaN is written as an
empty cell (`to_csv` default `na_rep`). -/
def renderBal : PyFloat → Option String
  | .nan => none
  | .inf b => some (if b then "-inf" else "inf")
  | .num q => some (renderQ q)

/-- Lines 133–137: the file `process_csv` writes, as a `CSVFile` — note its
header uses the canonical names, not the Japanese input names. -/
def outputCSVFile (out : List (Nat × PyFloat)) : CSVFile :=
  { columns := ["DateTime", "Balance"]
    rows := out.map (fun p => { time := some (formatTS p.1), bal := renderBal p.2 }) }

/-- Strict ordering on records by timestamp. -/
def keyLT (a b : Nat × PyFloat) : Prop := a.1 < b.1

/-- The last non-NaN value of the list, `acc` if there is none — the value
the forward-fill scan carries. -/
def lastNN (acc : PyFloat) (l : List (Nat × PyFloat)) : PyFloat :=
  l.foldl (fun a p => if p.2 = .nan then a else p.2) acc

/-- Balance at timestamp `t` (first matching record). -/
def lookupV (l : List (Nat × PyFloat)) (t : Nat) : Option PyFloat :=
  (l.find? (fun p => decide (p.1 = t))).map Prod.snd

/-- Balance of the first row of the parsed list whose timestamp is `t`. -/
def firstParsedAt (l : List (Option Nat × PyFloat)) (t : Nat) : Option PyFloat :=
  (l.find? (fun p => decide (p.1 = some t))).map Prod.snd

/-- The two conversions of one row fused into one raise-propagating step. -/
def rowP (r : Row) : Except Unit (Option Nat × PyFloat) :=
  (balCoerce r.bal).bind fun b => (toDT r.time).map fun t => (t, b)

/-- One data row of the concrete test inputs. -/
def mkRow (t b : String) : Row := { time := some t, bal := some b }

/-- Scenario-2 input of the spec: two observations 45 minutes apart. -/
def csvGap : CSVFile :=
  { columns := ["時間", "残高"]
    rows := [mkRow "2024.01.01 00:00:00" "1000", mkRow "2024.01.01 00:45:00" "2000"] }

/-- The result `process_csv` produces on `csvGap`. -/
def outGap : List (Nat × PyFloat) :=
  [(epochSecs 2024 1 1 0 0 0, .num 1000), (epochSecs 2024 1 1 0 15 0, .num 1000),
   (epochSecs 2024 1 1 0 30 0, .num 1000), (epochSecs 2024 1 1 0 45 0, .num 2000)]

/-- An input whose maximum observation (00:07:00) is off the 15-minute grid
anchored at the minimum. -/
def csvOff : CSVFile :=
  { columns := ["時間", "残高"]
    rows := [mkRow "2024.01.01 00:00:00" "1000", mkRow "2024.01.01 00:07:00" "1100"] }

/-- A single clean observation. -/
def csvOne : CSVFile :=
  { columns := ["時間", "残高"], rows := [mkRow "2024.01.01 00:00:00" "1000"] }

/-- `csvOne` plus a row whose balance text is unparseable. -/
def csvBadBal : CSVFile :=
  { columns := ["時間", "残高"]
    rows := [mkRow "2024.01.01 00:00:00" "1000", mkRow "2024.01.01 00:15:00" "abc"] }

/-- `csvOne` plus a summary row carrying the end-of-data sentinel. -/
def csvSentinel : CSVFile :=
  { columns := ["時間", "残高"]
    rows := [mkRow "2024.01.01 00:00:00" "1000", mkRow "end of test" "0"] }

/-- `csvOne` plus a row with a missing (NaN) timestamp. -/
def csvNaTRow : CSVFile :=
  { columns := ["時間", "残高"]
    rows := [mkRow "2024.01.01 00:00:00" "1000", { time := none, bal := some "5" }] }

/-- Scenario-3 input: a duplicated timestamp with two different balances. -/
def csvDupTS : CSVFile :=
  { columns := ["時間", "残高"]
    rows := [mkRow "2024.01.01 00:00:00" "400", mkRow "2024.01.01 00:15:00" "500",
             mkRow "2024.01.01 00:15:00" "600"] }

/-- A header-only input: no rows at all survive cleaning. -/
def csvEmpty : CSVFile := { columns := ["時間", "残高"], rows := [] }

/-- An input whose first observation has a missing balance cell (NaN). -/
def csvNaNBal : CSVFile :=
  { columns := ["時間", "残高"]
    rows := [{ time := some "2024.01.01 00:00:00", bal := none },
             mkRow "2024.01.01 00:15:00" "7"] }

/-! ### Basic facts about the `Except`-monad plumbing -/

theorem ebind_ok {α β : Type} (a : α) (f : α → Except Unit β) :
    (Except.ok a : Except Unit α).bind f = f a := rfl

theorem ebind_error {α β : Type} (f : α → Except Unit β) :
    (Except.error () : Except Unit α).bind f = .error () := rfl

theorem emap_ok {α β : Type} (g : α → β) (a : α) :
    (Except.ok a : Except Unit α).map g = .ok (g a) := rfl

theorem emap_error {α β : Type} (g : α → β) :
    (Except.error () : Except Unit α).map g = .error () := rfl

theorem unit_eq (u : Unit) : u = () := rfl

theorem error_unit {α : Type} {e : Unit} : (Except.error e : Except Unit α) = .error () := rfl

theorem mapE_nil {α β : Type} (f : α → Except Unit β) : mapE f [] = .ok [] := rfl

theorem mapE_cons {α β : Type} (f : α → Except Unit β) (x : α) (xs : List α) :
    mapE f (x :: xs) = (f x).bind fun y => (mapE f xs).map fun ys => y :: ys := rfl

/-- Whatever a successful column-wide conversion returns, every single cell
converted successfully. -/
theorem mapE_ok_mem {α β : Type} {f : α → Except Unit β} :
    ∀ {l : List α} {ys : List β}, mapE f l = .ok ys → ∀ x ∈ l, ∃ y, f x = .ok y := by
  intro l
  induction l with
  | nil => intro ys _ x hx; exact absurd hx (List.not_mem_nil x)
  | cons a as ih =>
    intro ys h x hx
    rw [mapE_cons] at h
    cases hfa : f a with
    | error e =>
      cases e
      rw [hfa, ebind_error] at h
      exact Except.noConfusion h
    | ok y =>
      rw [hfa, ebind_ok] at h
      cases hmt : mapE f as with
      | error e =>
        cases e
        rw [hmt, emap_error] at h
        exact Except.noConfusion h
      | ok ys' =>
        rcases List.mem_cons.mp hx with hxa | hxs
        · exact ⟨y, hxa ▸ hfa⟩
        · exact ih hmt x hxs

/-- A column-wide conversion raises exactly when some cell raises. -/
theorem mapE_error_iff {α β : Type} {f : α → Except Unit β} :
    ∀ {l : List α}, mapE f l = .error () ↔ ∃ x ∈ l, f x = .error () := by
  intro l
  induction l with
  | nil =>
    constructor
    · intro h; exact Except.noConfusion h
    · rintro ⟨x, hx, _⟩; exact absurd hx (List.not_mem_nil x)
  | cons a as ih =>
    rw [mapE_cons]
    cases hfa : f a with
    | error e =>
      cases e
      rw [ebind_error]
      exact ⟨fun _ => ⟨a, List.mem_cons_self a as, hfa⟩, fun _ => rfl⟩
    | ok y =>
      rw [ebind_ok]
      cases hmt : mapE f as with
      | error e =>
        cases e
        rw [emap_error]
        constructor
        · intro _
          rcases ih.mp hmt with ⟨x, hx, hfx⟩
          exact ⟨x, List.mem_cons_of_mem a hx, hfx⟩
        · intro _; rfl
      | ok ys' =>
        rw [emap_ok]
        constructor
        · intro h; exact Except.noConfusion h
        · rintro ⟨x, hx, hfx⟩
          rcases List.mem_cons.mp hx with hxa | hxs
          · rw [hxa] at hfx; rw [hfx] at hfa; exact Except.noConfusion hfa
          · have hcontra : mapE f as = .error () := ih.mpr ⟨x, hxs, hfx⟩
            rw [hcontra] at hmt; exact Except.noConfusion hmt

/-- Fusing two successive column-wide conversions into one row-wise pass
(error values are trivial, so the order errors surface in cannot be told
apart). -/
theorem mapE_mapE {α β γ : Type} (f : α → Except Unit β) (g : β → Except Unit γ) :
    ∀ (l : List α), (mapE f l).bind (mapE g) = mapE (fun x => (f x).bind g) l := by
  intro l
  induction l with
  | nil => rfl
  | cons a as ih =>
    rw [mapE_cons, mapE_cons]
    cases hfa : f a with
    | error e => cases e; rfl
    | ok y =>
      rw [ebind_ok, ebind_ok, ← ih]
      cases hmt : mapE f as with
      | error e =>
        cases e
        cases hga : g y with
        | error e2 => cases e2; rfl
        | ok z => rfl
      | ok ys => rfl

/-- `to_datetime` yields NaT exactly on a NaN cell; a string either parses
or raises. -/
theorem toDT_ok_none_iff {c : Cell} : toDT c = .ok none ↔ c = none := by
  cases c with
  | none => simp [toDT]
  | some s =>
    simp only [toDT]
    cases hp : parseTS s with
    | none => exact ⟨fun h => Except.noConfusion h, fun h => Option.noConfusion h⟩
    | some t =>
      constructor
      · intro h
        injection h with h2
        exact Option.noConfusion h2
      · intro h; exact Option.noConfusion h

/-- The two-pass conversion of `parsedOf` equals the fused row-wise pass. -/
theorem parsedOf_eq_mapE_rowP (csv : CSVFile) :
    parsedOf csv = (selectRows csv).bind (mapE rowP) := by
  unfold parsedOf
  cases hs : selectRows csv with
  | error e =>
    cases e
    rw [ebind_error, ebind_error]
  | ok rs =>
    rw [ebind_ok, ebind_ok]
    unfold coerceBalances parseTimes
    rw [mapE_mapE]
    congr 1
    funext r
    unfold coerceRow rowP timeRow
    cases hb : balCoerce r.bal with
    | error e => cases e; rfl
    | ok b => rfl

/-! ### Duplicate removal -/

theorem dedupAux_subset {α β : Type} [DecidableEq α] :
    ∀ (l : List (α × β)) (seen : List α) (p : α × β), p ∈ dedupAux seen l → p ∈ l := by
  intro l
  induction l with
  | nil => intro seen p h; exact absurd h (List.not_mem_nil p)
  | cons q qs ih =>
    intro seen p h
    rw [dedupAux] at h
    by_cases hq : q.1 ∈ seen
    · rw [if_pos hq] at h
      exact List.mem_cons_of_mem q (ih seen p h)
    · rw [if_neg hq] at h
      rcases List.mem_cons.mp h with h1 | h2
      · exact h1 ▸ List.mem_cons_self q qs
      · exact List.mem_cons_of_mem q (ih (q.1 :: seen) p h2)

theorem dedupAux_keys_notin_seen {α β : Type} [DecidableEq α] :
    ∀ (l : List (α × β)) (seen : List α) (k : α),
      k ∈ (dedupAux seen l).map Prod.fst → k ∉ seen := by
  intro l
  induction l with
  | nil => intro seen k h; rw [dedupAux] at h; exact absurd h (by simp)
  | cons q qs ih =>
    intro seen k h
    rw [dedupAux] at h
    by_cases hq : q.1 ∈ seen
    · rw [if_pos hq] at h
      exact ih seen k h
    · rw [if_neg hq] at h
      rw [List.map_cons, List.mem_cons] at h
      rcases h with h1 | h2
      · exact h1 ▸ hq
      · intro hk
        exact ih (q.1 :: seen) k h2 (List.mem_cons_of_mem q.1 hk)

theorem dedupAux_keys_nodup {α β : Type} [DecidableEq α] :
    ∀ (l : List (α × β)) (seen : List α), ((dedupAux seen l).map Prod.fst).Nodup := by
  intro l
  induction l with
  | nil => intro seen; rw [dedupAux]; exact List.nodup_nil
  | cons q qs ih =>
    intro seen
    rw [dedupAux]
    by_cases hq : q.1 ∈ seen
    · rw [if_pos hq]; exact ih seen
    · rw [if_neg hq]
      rw [List.map_cons, List.nodup_cons]
      refine ⟨fun hmem => ?_, ih (q.1 :: seen)⟩
      exact dedupAux_keys_notin_seen qs (q.1 :: seen) q.1 hmem (List.mem_cons_self q.1 seen)

theorem dedupAux_mem_keys {α β : Type} [DecidableEq α] :
    ∀ (l : List (α × β)) (seen : List α) (k : α),
      k ∈ l.map Prod.fst → k ∉ seen → k ∈ (dedupAux seen l).map Prod.fst := by
  intro l
  induction l with
  | nil => intro seen k h _; exact absurd h (by simp)
  | cons q qs ih =>
    intro seen k h hk
    rw [dedupAux]
    rw [List.map_cons, List.mem_cons] at h
    by_cases hq : q.1 ∈ seen
    · rw [if_pos hq]
      rcases h with h1 | h2
      · exact absurd (h1 ▸ hq) hk
      · exact ih seen k h2 hk
    · rw [if_neg hq]
      rw [List.map_cons, List.mem_cons]
      rcases h with h1 | h2
      · exact Or.inl h1
      · by_cases hkq : k = q.1
        · exact Or.inl hkq
        · refine Or.inr (ih (q.1 :: seen) k h2 ?_)
          intro hmem
          rcases List.mem_cons.mp hmem with h3 | h4
          · exact hkq h3
          · exact hk h4

/-- An entry surviving deduplication is the *first* entry of the input that
carries its key. -/
theorem dedupAux_find {α β : Type} [DecidableEq α] :
    ∀ (l : List (α × β)) (seen : List α) (k : α) (v : β),
      (k, v) ∈ dedupAux seen l → k ∉ seen →
      l.find? (fun p => decide (p.1 = k)) = some (k, v) := by
  intro l
  induction l with
  | nil => intro seen k v h _; exact absurd h (List.not_mem_nil _)
  | cons q qs ih =>
    intro seen k v h hk
    rw [dedupAux] at h
    by_cases hq : q.1 ∈ seen
    · rw [if_pos hq] at h
      have hne : q.1 ≠ k := fun he => hk (he ▸ hq)
      rw [List.find?_cons_of_neg _ (by simpa using hne)]
      exact ih seen k v h hk
    · rw [if_neg hq] at h
      rcases List.mem_cons.mp h with h1 | h2
      · have hqk : q.1 = k := by rw [← h1]
        rw [List.find?_cons_of_pos _ (by simpa using hqk), ← h1]
      · have hne : k ≠ q.1 := by
          intro he
          have := dedupAux_keys_notin_seen qs (q.1 :: seen) k
            (List.mem_map.mpr ⟨(k, v), h2, rfl⟩)
          exact this (he ▸ List.mem_cons_self q.1 seen)
        rw [List.find?_cons_of_neg _ (by simpa using hne.symm)]
        exact ih (q.1 :: seen) k v h2 (by
          intro hmem
          rcases List.mem_cons.mp hmem with h3 | h4
          · exact hne h3
          · exact hk h4)

/-- Deduplication does nothing when all keys are already distinct. -/
theorem dedupAux_eq_self {α β : Type} [DecidableEq α] :
    ∀ (l : List (α × β)) (seen : List α), (l.map Prod.fst).Nodup →
      (∀ k ∈ l.map Prod.fst, k ∉ seen) → dedupAux seen l = l := by
  intro l
  induction l with
  | nil => intro seen _ _; rfl
  | cons q qs ih =>
    intro seen hnd hdisj
    rw [dedupAux]
    have hq : q.1 ∉ seen := hdisj q.1 (by simp)
    rw [if_neg hq]
    rw [List.map_cons, List.nodup_cons] at hnd
    congr 1
    refine ih (q.1 :: seen) hnd.2 ?_
    intro k hkmem hk
    rcases List.mem_cons.mp hk with h1 | h2
    · exact hnd.1 (h1 ▸ hkmem)
    · exact hdisj k (List.mem_cons_of_mem q.1 hkmem) h2

/-! ### Dropping NaT rows -/

theorem dropNaT_nil : dropNaT [] = [] := rfl

theorem dropNaT_cons_none (v : PyFloat) (l : List (Option Nat × PyFloat)) :
    dropNaT ((none, v) :: l) = dropNaT l := rfl

theorem dropNaT_cons_some (t : Nat) (v : PyFloat) (l : List (Option Nat × PyFloat)) :
    dropNaT ((some t, v) :: l) = (t, v) :: dropNaT l := rfl

theorem dropNaT_mem {l : List (Option Nat × PyFloat)} {t : Nat} {v : PyFloat} :
    (t, v) ∈ dropNaT l ↔ (some t, v) ∈ l := by
  unfold dropNaT
  rw [List.mem_filterMap]
  constructor
  · rintro ⟨⟨o, w⟩, hmem, heq⟩
    cases o with
    | none => exact absurd heq (by simp)
    | some t' =>
      simp only [Option.map_some'] at heq
      injection heq with h1
      injection h1 with h2 h3
      rw [← h2, ← h3]
      exact hmem
  · intro h
    exact ⟨(some t, v), h, rfl⟩

theorem dropNaT_keys_nodup :
    ∀ {l : List (Option Nat × PyFloat)}, (l.map Prod.fst).Nodup →
      ((dropNaT l).map Prod.fst).Nodup := by
  intro l
  induction l with
  | nil => intro _; exact List.nodup_nil
  | cons q qs ih =>
    intro hnd
    rw [List.map_cons, List.nodup_cons] at hnd
    obtain ⟨⟨o, w⟩, rfl⟩ : ∃ p, p = q := ⟨q, rfl⟩
    cases o with
    | none => rw [dropNaT_cons_none]; exact ih hnd.2
    | some t =>
      rw [dropNaT_cons_some, List.map_cons, List.nodup_cons]
      refine ⟨fun hmem => ?_, ih hnd.2⟩
      rcases List.mem_map.mp hmem with ⟨⟨t', v'⟩, hpm, hfst⟩
      have : (some t, v') ∈ qs := dropNaT_mem.mp (by rw [show t' = t from hfst] at hpm; exact hpm)
      exact hnd.1 (List.mem_map.mpr ⟨(some t, v'), this, rfl⟩)

/-! ### Sorting -/

theorem sortK_perm (l : List (Nat × PyFloat)) : List.Perm (List.insertionSort leKey l) l :=
  List.perm_insertionSort leKey l

theorem sortK_sorted (l : List (Nat × PyFloat)) :
    List.Sorted leKey (List.insertionSort leKey l) :=
  List.sorted_insertionSort leKey l

/-- Sorted with distinct keys means strictly increasing keys. -/
theorem sorted_nodup_pairwise_lt {l : List (Nat × PyFloat)}
    (hs : List.Sorted leKey l) (hn : (l.map Prod.fst).Nodup) :
    List.Pairwise keyLT l := by
  have hpne : List.Pairwise (fun a b : Nat × PyFloat => a.1 ≠ b.1) l :=
    (List.pairwise_map).mp hn
  exact (hs.and hpne).imp (fun h => lt_of_le_of_ne h.1 h.2)

/-- Two entries of a list with distinct keys that share a key are equal. -/
theorem mem_unique_of_keys_nodup {l : List (Nat × PyFloat)} {t : Nat} {v v' : PyFloat}
    (hn : (l.map Prod.fst).Nodup) (h1 : (t, v) ∈ l) (h2 : (t, v') ∈ l) : v = v' := by
  induction l with
  | nil => exact absurd h1 (List.not_mem_nil _)
  | cons q qs ih =>
    rw [List.map_cons, List.nodup_cons] at hn
    rcases List.mem_cons.mp h1 with ha | ha <;> rcases List.mem_cons.mp h2 with hb | hb
    · rw [← ha] at hb; injection hb with _ h; exact h.symm
    · exfalso
      exact hn.1 (List.mem_map.mpr ⟨(t, v'), hb, by rw [← ha]⟩)
    · exfalso
      exact hn.1 (List.mem_map.mpr ⟨(t, v), ha, by rw [← hb]⟩)
    · exact ih hn.2 ha hb

/-! ### Minimum and maximum -/

theorem foldl_min_le : ∀ (ts : List Nat) (a : Nat),
    ts.foldl Nat.min a ≤ a ∧ ∀ t ∈ ts, ts.foldl Nat.min a ≤ t := by
  intro ts
  induction ts with
  | nil => intro a; exact ⟨Nat.le_refl a, fun t ht => absurd ht (List.not_mem_nil t)⟩
  | cons t ts ih =>
    intro a
    rw [List.foldl_cons]
    rcases ih (Nat.min a t) with ⟨h1, h2⟩
    refine ⟨Nat.le_trans h1 (Nat.min_le_left a t), fun u hu => ?_⟩
    rcases List.mem_cons.mp hu with hu1 | hu2
    · rw [hu1]; exact Nat.le_trans h1 (Nat.min_le_right a t)
    · exact h2 u hu2

theorem foldl_min_mem : ∀ (ts : List Nat) (a : Nat),
    ts.foldl Nat.min a = a ∨ ts.foldl Nat.min a ∈ ts := by
  intro ts
  induction ts with
  | nil => intro a; exact Or.inl rfl
  | cons t ts ih =>
    intro a
    rw [List.foldl_cons]
    rcases ih (Nat.min a t) with h | h
    · rcases min_choice a t with hm | hm
      · exact Or.inl (h.trans hm)
      · exact Or.inr (List.mem_cons.mpr (Or.inl (h.trans hm)))
    · exact Or.inr (List.mem_cons_of_mem t h)

theorem foldl_max_ge : ∀ (ts : List Nat) (a : Nat),
    a ≤ ts.foldl Nat.max a ∧ ∀ t ∈ ts, t ≤ ts.foldl Nat.max a := by
  intro ts
  induction ts with
  | nil => intro a; exact ⟨Nat.le_refl a, fun t ht => absurd ht (List.not_mem_nil t)⟩
  | cons t ts ih =>
    intro a
    rw [List.foldl_cons]
    rcases ih (Nat.max a t) with ⟨h1, h2⟩
    refine ⟨Nat.le_trans (Nat.le_max_left a t) h1, fun u hu => ?_⟩
    rcases List.mem_cons.mp hu with hu1 | hu2
    · rw [hu1]; exact Nat.le_trans (Nat.le_max_right a t) h1
    · exact h2 u hu2

theorem foldl_max_mem : ∀ (ts : List Nat) (a : Nat),
    ts.foldl Nat.max a = a ∨ ts.foldl Nat.max a ∈ ts := by
  intro ts
  induction ts with
  | nil => intro a; exact Or.inl rfl
  | cons t ts ih =>
    intro a
    rw [List.foldl_cons]
    rcases ih (Nat.max a t) with h | h
    · rcases max_choice a t with hm | hm
      · exact Or.inl (h.trans hm)
      · exact Or.inr (List.mem_cons.mpr (Or.inl (h.trans hm)))
    · exact Or.inr (List.mem_cons_of_mem t h)

theorem listMin_spec {l : List Nat} {mn : Nat} (h : listMin l = some mn) :
    mn ∈ l ∧ ∀ t ∈ l, mn ≤ t := by
  cases l with
  | nil => exact absurd h (by simp [listMin])
  | cons t ts =>
    rw [listMin] at h
    injection h with h1
    constructor
    · rcases foldl_min_mem ts t with hm | hm
      · rw [← h1, hm]; exact List.mem_cons_self t ts
      · rw [← h1]; exact List.mem_cons_of_mem t hm
    · intro u hu
      rcases List.mem_cons.mp hu with hu1 | hu2
      · rw [← h1, hu1]; exact (foldl_min_le ts t).1
      · rw [← h1]; exact (foldl_min_le ts t).2 u hu2

theorem listMax_spec {l : List Nat} {mx : Nat} (h : listMax l = some mx) :
    mx ∈ l ∧ ∀ t ∈ l, t ≤ mx := by
  cases l with
  | nil => exact absurd h (by simp [listMax])
  | cons t ts =>
    rw [listMax] at h
    injection h with h1
    constructor
    · rcases foldl_max_mem ts t with hm | hm
      · rw [← h1, hm]; exact List.mem_cons_self t ts
      · rw [← h1]; exact List.mem_cons_of_mem t hm
    · intro u hu
      rcases List.mem_cons.mp hu with hu1 | hu2
      · rw [← h1, hu1]; exact (foldl_max_ge ts t).1
      · rw [← h1]; exact (foldl_max_ge ts t).2 u hu2

theorem listMin_nil_iff {l : List Nat} : listMin l = none ↔ l = [] := by
  cases l <;> simp [listMin]

theorem listMax_nil_iff {l : List Nat} : listMax l = none ↔ l = [] := by
  cases l <;> simp [listMax]

/-! ### The 15-minute grid -/

theorem dateRange_mem {mn mx t : Nat} (h : mn ≤ mx) :
    t ∈ dateRange mn mx ↔ ∃ k, t = mn + 900 * k ∧ t ≤ mx := by
  unfold dateRange
  rw [if_neg (Nat.not_lt.mpr h)]
  rw [List.mem_map]
  constructor
  · rintro ⟨k, hk, rfl⟩
    rw [List.mem_range] at hk
    exact ⟨k, rfl, by omega⟩
  · rintro ⟨k, rfl, hle⟩
    refine ⟨k, List.mem_range.mpr (by omega), rfl⟩

theorem dateRange_length {mn mx : Nat} (h : mn ≤ mx) :
    (dateRange mn mx).length = (mx - mn) / 900 + 1 := by
  unfold dateRange
  rw [if_neg (Nat.not_lt.mpr h), List.length_map, List.length_range]

theorem dateRange_nodup (mn mx : Nat) : (dateRange mn mx).Nodup := by
  unfold dateRange
  by_cases h : mx < mn
  · rw [if_pos h]; exact List.nodup_nil
  · rw [if_neg h]
    refine List.Nodup.map ?_ (List.nodup_range _)
    intro a b hab
    have hab2 : mn + 900 * a = mn + 900 * b := hab
    omega

theorem dateRange_ge {mn mx t : Nat} (h : t ∈ dateRange mn mx) : mn ≤ t := by
  unfold dateRange at h
  by_cases hc : mx < mn
  · rw [if_pos hc] at h; exact absurd h (List.not_mem_nil t)
  · rw [if_neg hc] at h
    rcases List.mem_map.mp h with ⟨k, _, rfl⟩
    omega

theorem dateRange_self_mem {mn mx : Nat} (h : mn ≤ mx) : mn ∈ dateRange mn mx :=
  (dateRange_mem h).mpr ⟨0, by omega, h⟩

/-! ### Forward fill -/

theorem ffill_cons (acc : PyFloat) (t : Nat) (v : PyFloat) (l : List (Nat × PyFloat)) :
    ffill acc ((t, v) :: l) =
      (t, if v = .nan then acc else v) :: ffill (if v = .nan then acc else v) l := by
  by_cases hv : v = PyFloat.nan
  · rw [ffill, if_pos hv, if_pos hv]
  · rw [ffill, if_neg hv, if_neg hv]

theorem ffill_map_fst (acc : PyFloat) :
    ∀ (l : List (Nat × PyFloat)), (ffill acc l).map Prod.fst = l.map Prod.fst := by
  intro l
  induction l generalizing acc with
  | nil => rfl
  | cons p ps ih =>
    obtain ⟨t, v⟩ := p
    rw [ffill_cons, List.map_cons, List.map_cons, ih]

theorem lastNN_nil (acc : PyFloat) : lastNN acc [] = acc := rfl

theorem lastNN_cons (acc : PyFloat) (t : Nat) (v : PyFloat) (l : List (Nat × PyFloat)) :
    lastNN acc ((t, v) :: l) = lastNN (if v = .nan then acc else v) l := by
  unfold lastNN
  rw [List.foldl_cons]

theorem lastNN_append (acc : PyFloat) (l1 l2 : List (Nat × PyFloat)) :
    lastNN acc (l1 ++ l2) = lastNN (lastNN acc l1) l2 := by
  unfold lastNN
  rw [List.foldl_append]

/-- The carried value is the last non-NaN value of the prefix scanned so
far. -/
theorem lastNN_eq_getLastD (l : List (Nat × PyFloat)) :
    ∀ acc, lastNN acc l =
      ((l.filter (fun p => decide (p.2 ≠ .nan))).map Prod.snd).getLastD acc := by
  induction l with
  | nil => intro acc; rfl
  | cons p ps ih =>
    intro acc
    obtain ⟨t, v⟩ := p
    rw [lastNN_cons]
    by_cases hv : v = PyFloat.nan
    · rw [if_pos hv]
      rw [List.filter_cons_of_neg (by simp [hv])]
      exact ih acc
    · rw [if_neg hv]
      rw [List.filter_cons_of_pos (by simp [hv]), List.map_cons, List.getLastD_cons]
      exact ih v

/-- In a strictly key-sorted list, the records with key at most `t`, where
`(t, v)` is a member, are those with key below `t` followed by `(t, v)`. -/
theorem filter_le_split {l : List (Nat × PyFloat)} {t : Nat} {v : PyFloat}
    (hp : List.Pairwise keyLT l) (hm : (t, v) ∈ l) :
    l.filter (fun p => decide (p.1 ≤ t)) =
      l.filter (fun p => decide (p.1 < t)) ++ [(t, v)] := by
  induction l with
  | nil => exact absurd hm (List.not_mem_nil _)
  | cons q qs ih =>
    rw [List.pairwise_cons] at hp
    rcases List.mem_cons.mp hm with h1 | h2
    · rw [← h1]
      rw [List.filter_cons_of_pos (by simp)]
      rw [List.filter_cons_of_neg (by simp)]
      have hqs_le : qs.filter (fun p => decide (p.1 ≤ t)) = [] := by
        rw [List.filter_eq_nil_iff]
        intro p hpmem
        have := hp.1 p hpmem
        rw [← h1] at this
        simp only [keyLT] at this
        simp only [decide_eq_true_eq]
        omega
      have hqs_lt : qs.filter (fun p => decide (p.1 < t)) = [] := by
        rw [List.filter_eq_nil_iff]
        intro p hpmem
        have := hp.1 p hpmem
        rw [← h1] at this
        simp only [keyLT] at this
        simp only [decide_eq_true_eq]
        omega
      rw [hqs_le, hqs_lt]
      rfl
    · have hqt : q.1 < t := by
        have := hp.1 (t, v) h2
        simpa [keyLT] using this
      rw [List.filter_cons_of_pos (by simp; omega)]
      rw [List.filter_cons_of_pos (by simp [hqt])]
      rw [ih hp.2 h2, List.cons_append]

/-- Forward-fill characterised: on a strictly key-sorted list the record at
key `t` ends up carrying the last non-NaN value at or before `t`. -/
theorem ffill_mem_iff {l : List (Nat × PyFloat)} (hp : List.Pairwise keyLT l) :
    ∀ (acc : PyFloat) (t : Nat) (w : PyFloat),
      ((t, w) ∈ ffill acc l ↔
        (∃ v, (t, v) ∈ l) ∧ w = lastNN acc (l.filter (fun p => decide (p.1 ≤ t)))) := by
  induction l with
  | nil =>
    intro acc t w
    constructor
    · intro h; exact absurd h (List.not_mem_nil _)
    · rintro ⟨⟨v, hv⟩, _⟩; exact absurd hv (List.not_mem_nil _)
  | cons q qs ih =>
    intro acc t w
    obtain ⟨t0, v0⟩ := q
    rw [List.pairwise_cons] at hp
    rw [ffill_cons]
    by_cases ht : t = t0
    · subst ht
      have hqs_nomem : ∀ w' : PyFloat, (t, w') ∉ qs := by
        intro w' hmem
        have := hp.1 (t, w') hmem
        simp only [keyLT] at this
        omega
      have hqs_nomem_ffill : ∀ w' : PyFloat,
          (t, w') ∉ ffill (if v0 = PyFloat.nan then acc else v0) qs := by
        intro w' hmem
        have hkey : t ∈ (ffill (if v0 = PyFloat.nan then acc else v0) qs).map Prod.fst :=
          List.mem_map.mpr ⟨(t, w'), hmem, rfl⟩
        rw [ffill_map_fst] at hkey
        rcases List.mem_map.mp hkey with ⟨p, hpmem, hpfst⟩
        have := hp.1 p hpmem
        simp only [keyLT] at this
        omega
      constructor
      · intro h
        rcases List.mem_cons.mp h with h1 | h2
        · refine ⟨⟨v0, List.mem_cons_self _ _⟩, ?_⟩
          rw [filter_le_split (List.pairwise_cons.mpr hp) (List.mem_cons_self _ _)]
          rw [lastNN_append, lastNN_cons, lastNN_nil]
          have hfilter : ((t, v0) :: qs).filter (fun p => decide (p.1 < t)) = [] := by
            rw [List.filter_eq_nil_iff]
            intro p hpmem
            rcases List.mem_cons.mp hpmem with hh | hh
            · rw [hh]; simp
            · have := hp.1 p hh
              simp only [keyLT] at this
              simp only [decide_eq_true_eq]
              omega
          rw [hfilter, lastNN_nil]
          exact congrArg Prod.snd h1
        · exact absurd h2 (hqs_nomem_ffill w)
      · rintro ⟨⟨v, _⟩, hw⟩
        rw [filter_le_split (List.pairwise_cons.mpr hp) (List.mem_cons_self _ _)] at hw
        rw [lastNN_append, lastNN_cons, lastNN_nil] at hw
        have hfilter : ((t, v0) :: qs).filter (fun p => decide (p.1 < t)) = [] := by
          rw [List.filter_eq_nil_iff]
          intro p hpmem
          rcases List.mem_cons.mp hpmem with hh | hh
          · rw [hh]; simp
          · have := hp.1 p hh
            simp only [keyLT] at this
            simp only [decide_eq_true_eq]
            omega
        rw [hfilter, lastNN_nil] at hw
        rw [hw]
        exact List.mem_cons_self _ _
    · constructor
      · intro h
        rcases List.mem_cons.mp h with h1 | h2
        · exact absurd (congrArg Prod.fst h1) ht
        · rcases (ih hp.2 _ t w).mp h2 with ⟨⟨v, hv⟩, hw⟩
          have ht0t : t0 < t := by
            have := hp.1 (t, v) hv
            simpa [keyLT] using this
          refine ⟨⟨v, List.mem_cons_of_mem _ hv⟩, ?_⟩
          rw [List.filter_cons_of_pos (by simp; omega), lastNN_cons]
          exact hw
      · rintro ⟨⟨v, hv⟩, hw⟩
        rcases List.mem_cons.mp hv with h1 | h2
        · exact absurd (congrArg Prod.fst h1) ht
        · have ht0t : t0 < t := by
            have := hp.1 (t, v) h2
            simpa [keyLT] using this
          rw [List.filter_cons_of_pos (by simp; omega), lastNN_cons] at hw
          refine List.mem_cons_of_mem _ ((ih hp.2 _ t w).mpr ⟨⟨v, h2⟩, hw⟩)

/-- In a strictly key-sorted list the last element has the largest key. -/
theorem pairwise_le_getLast {l : List (Nat × PyFloat)} (hp : List.Pairwise keyLT l)
    (hne : l ≠ []) : ∀ p ∈ l, p.1 ≤ (l.getLast hne).1 := by
  induction l with
  | nil => exact absurd rfl hne
  | cons q qs ih =>
    intro p hpmem
    rw [List.pairwise_cons] at hp
    cases qs with
    | nil =>
      rcases List.mem_cons.mp hpmem with h1 | h2
      · rw [h1]; exact Nat.le_refl _
      · exact absurd h2 (List.not_mem_nil p)
    | cons r rs =>
      have hqsne : r :: rs ≠ [] := List.cons_ne_nil r rs
      rw [List.getLast_cons hqsne]
      rcases List.mem_cons.mp hpmem with h1 | h2
      · have hmem := List.getLast_mem hqsne
        have := hp.1 _ hmem
        simp only [keyLT] at this
        rw [h1]
        omega
      · exact ih hp.2 hqsne p h2

/-- If the forward-fill carry ends NaN, everything scanned was NaN. -/
theorem lastNN_eq_nan {l : List (Nat × PyFloat)} :
    ∀ {acc}, lastNN acc l = .nan → acc = .nan ∧ ∀ p ∈ l, p.2 = .nan := by
  induction l with
  | nil => intro acc h; exact ⟨h, fun p hp => absurd hp (List.not_mem_nil p)⟩
  | cons q qs ih =>
    intro acc h
    obtain ⟨t, v⟩ := q
    rw [lastNN_cons] at h
    by_cases hv : v = PyFloat.nan
    · rw [if_pos hv] at h
      rcases ih h with ⟨h1, h2⟩
      refine ⟨h1, fun p hp => ?_⟩
      rcases List.mem_cons.mp hp with hh | hh
      · rw [hh]; exact hv
      · exact h2 p hh
    · rw [if_neg hv] at h
      exact absurd (ih h).1 hv

theorem lastNN_ne_nan_of_mem {l : List (Nat × PyFloat)} {p : Nat × PyFloat} {acc : PyFloat}
    (hm : p ∈ l) (hnn : p.2 ≠ .nan) : lastNN acc l ≠ .nan := by
  intro h
  exact hnn ((lastNN_eq_nan h).2 p hm)

theorem map_snd_getLastD :
    ∀ (F : List (Nat × PyFloat)) (h : F ≠ []) (a : PyFloat),
      (F.map Prod.snd).getLastD a = (F.getLast h).2 := by
  intro F
  induction F with
  | nil => intro h; exact absurd rfl h
  | cons q qs ih =>
    intro h a
    cases qs with
    | nil => rfl
    | cons r rs =>
      have hne : r :: rs ≠ [] := List.cons_ne_nil r rs
      rw [List.map_cons, List.getLastD_cons, List.getLast_cons hne]
      exact ih hne q.2

/-! ### Pipeline structure -/

/-- Eliminating a successful cleaning stage. -/
theorem cleanedOf_ok_elim {csv : CSVFile} {cle : List (Nat × PyFloat)}
    (h : cleanedOf csv = .ok cle) :
    ∃ l, parsedOf csv = .ok l ∧ cle = List.insertionSort leKey (dropNaT (dedupKeys l)) := by
  unfold cleanedOf at h
  cases hp : parsedOf csv with
  | error e =>
    cases e
    rw [hp, emap_error] at h
    exact Except.noConfusion h
  | ok l =>
    rw [hp, emap_ok] at h
    injection h with h1
    exact ⟨l, rfl, h1.symm⟩

/-- Keys of the cleaned series are distinct. -/
theorem cleaned_keys_nodup {csv : CSVFile} {cle : List (Nat × PyFloat)}
    (h : cleanedOf csv = .ok cle) : (cle.map Prod.fst).Nodup := by
  rcases cleanedOf_ok_elim h with ⟨l, _, rfl⟩
  have h1 : ((dropNaT (dedupKeys l)).map Prod.fst).Nodup :=
    dropNaT_keys_nodup (dedupAux_keys_nodup l [])
  have h2 := (sortK_perm (dropNaT (dedupKeys l))).map Prod.fst
  exact h2.nodup_iff.mpr h1

/-- The cleaned series is sorted with strictly increasing keys. -/
theorem cleaned_pairwise {csv : CSVFile} {cle : List (Nat × PyFloat)}
    (h : cleanedOf csv = .ok cle) : List.Pairwise keyLT cle := by
  rcases cleanedOf_ok_elim h with ⟨l, _, hcle⟩
  have hs : List.Sorted leKey cle := hcle ▸ sortK_sorted (dropNaT (dedupKeys l))
  exact sorted_nodup_pairwise_lt hs (cleaned_keys_nodup h)

/-- Eliminating a successful grid-fill stage. -/
theorem gridFill_ok_elim {cle out : List (Nat × PyFloat)} (h : gridFill cle = .ok out) :
    ∃ mn mx, listMin (cle.map Prod.fst) = some mn ∧ listMax (cle.map Prod.fst) = some mx ∧
      out = dedupKeys (ffill PyFloat.nan (List.insertionSort leKey (concatOf cle mn mx))) := by
  unfold gridFill at h
  cases hmn : listMin (cle.map Prod.fst) with
  | none => rw [hmn] at h; cases hmx : listMax (cle.map Prod.fst) <;> rw [hmx] at h <;>
      exact Except.noConfusion h
  | some mn =>
    cases hmx : listMax (cle.map Prod.fst) with
    | none => rw [hmn, hmx] at h; exact Except.noConfusion h
    | some mx =>
      rw [hmn, hmx] at h
      injection h with h1
      exact ⟨mn, mx, rfl, rfl, h1.symm⟩

/-- Eliminating a successful whole run. -/
theorem process_csv_some_elim {csv : CSVFile} {out : List (Nat × PyFloat)}
    (h : process_csv csv = some out) :
    ∃ cle, cleanedOf csv = .ok cle ∧ gridFill cle = .ok out := by
  unfold process_csv processBody at h
  cases hc : cleanedOf csv with
  | error e =>
    cases e
    rw [hc, ebind_error] at h
    exact Option.noConfusion h
  | ok cle =>
    rw [hc, ebind_ok] at h
    cases hg : gridFill cle with
    | error e =>
      cases e
      rw [hg] at h
      exact Option.noConfusion h
    | ok out' =>
      rw [hg] at h
      injection h with h1
      exact ⟨cle, rfl, by rw [hg, h1]⟩

/-- Keys of the concatenation (observed rows plus placeholders). -/
theorem concatOf_keys (cle : List (Nat × PyFloat)) (mn mx : Nat) :
    (concatOf cle mn mx).map Prod.fst =
      cle.map Prod.fst ++
        (dateRange mn mx).filter (fun t => decide (t ∉ cle.map Prod.fst)) := by
  unfold concatOf
  rw [List.map_append, List.map_map]
  congr 1
  exact List.map_id _

/-- The concatenation of observed rows and placeholders has distinct keys. -/
theorem concatOf_keys_nodup {cle : List (Nat × PyFloat)} (mn mx : Nat)
    (hn : (cle.map Prod.fst).Nodup) : ((concatOf cle mn mx).map Prod.fst).Nodup := by
  rw [concatOf_keys]
  refine List.Nodup.append hn ((dateRange_nodup mn mx).filter _) ?_
  intro t ht1 ht2
  rcases List.mem_filter.mp ht2 with ⟨_, hdec⟩
  rw [decide_eq_true_eq] at hdec
  exact hdec ht1

/-- Membership in the concatenation. -/
theorem concatOf_mem {cle : List (Nat × PyFloat)} {mn mx : Nat} {p : Nat × PyFloat} :
    p ∈ concatOf cle mn mx ↔
      p ∈ cle ∨ (p.2 = .nan ∧ p.1 ∈ dateRange mn mx ∧ p.1 ∉ cle.map Prod.fst) := by
  unfold concatOf
  rw [List.mem_append, List.mem_map]
  constructor
  · rintro (h | ⟨t, htf, rfl⟩)
    · exact Or.inl h
    · rcases List.mem_filter.mp htf with ⟨htg, hdec⟩
      rw [decide_eq_true_eq] at hdec
      exact Or.inr ⟨rfl, htg, hdec⟩
  · rintro (h | ⟨hnan, htg, hnot⟩)
    · exact Or.inl h
    · refine Or.inr ⟨p.1, List.mem_filter.mpr ⟨htg, by rw [decide_eq_true_eq]; exact hnot⟩, ?_⟩
      obtain ⟨t, v⟩ := p
      simp only at hnan
      rw [hnan]

/-- Keys of the concatenation, as a set: grid plus observed. -/
theorem concatOf_keys_mem {cle : List (Nat × PyFloat)} {mn mx : Nat} {t : Nat} :
    t ∈ (concatOf cle mn mx).map Prod.fst ↔
      t ∈ cle.map Prod.fst ∨ t ∈ dateRange mn mx := by
  rw [concatOf_keys, List.mem_append, List.mem_filter]
  constructor
  · rintro (h | ⟨hg, _⟩)
    · exact Or.inl h
    · exact Or.inr hg
  · rintro (h | hg)
    · exact Or.inl h
    · by_cases hc : t ∈ cle.map Prod.fst
      · exact Or.inl hc
      · exact Or.inr ⟨hg, by rw [decide_eq_true_eq]; exact hc⟩

/-- The sorted union of observed rows and placeholders has distinct keys. -/
theorem merged_keys_nodup {cle : List (Nat × PyFloat)} (mn mx : Nat)
    (hn : (cle.map Prod.fst).Nodup) :
    ((List.insertionSort leKey (concatOf cle mn mx)).map Prod.fst).Nodup :=
  ((sortK_perm (concatOf cle mn mx)).map Prod.fst).nodup_iff.mpr (concatOf_keys_nodup mn mx hn)

/-- The sorted union is strictly increasing in keys. -/
theorem merged_pairwise {cle : List (Nat × PyFloat)} (mn mx : Nat)
    (hn : (cle.map Prod.fst).Nodup) :
    List.Pairwise keyLT (List.insertionSort leKey (concatOf cle mn mx)) :=
  sorted_nodup_pairwise_lt (sortK_sorted _) (merged_keys_nodup mn mx hn)

/-- Membership in the sorted union is membership in the concatenation. -/
theorem merged_mem {cle : List (Nat × PyFloat)} {mn mx : Nat} {p : Nat × PyFloat} :
    p ∈ List.insertionSort leKey (concatOf cle mn mx) ↔ p ∈ concatOf cle mn mx :=
  (sortK_perm (concatOf cle mn mx)).mem_iff

/-- Keys of the sorted union, as a set. -/
theorem merged_keys_mem {cle : List (Nat × PyFloat)} {mn mx : Nat} {t : Nat} :
    t ∈ (List.insertionSort leKey (concatOf cle mn mx)).map Prod.fst ↔
      t ∈ cle.map Prod.fst ∨ t ∈ dateRange mn mx := by
  rw [((sortK_perm (concatOf cle mn mx)).map Prod.fst).mem_iff]
  exact concatOf_keys_mem

/-- Every key of the sorted union is at least the observed minimum. -/
theorem merged_keys_ge {cle : List (Nat × PyFloat)} {mn mx t : Nat}
    (hmn : listMin (cle.map Prod.fst) = some mn)
    (ht : t ∈ (List.insertionSort leKey (concatOf cle mn mx)).map Prod.fst) : mn ≤ t := by
  rcases merged_keys_mem.mp ht with h | h
  · exact (listMin_spec hmn).2 t h
  · exact dateRange_ge h

/-- A successful grid fill is exactly the forward-filled sorted union (the
final duplicate removal removes nothing). -/
theorem gridFill_eq {cle out : List (Nat × PyFloat)} {mn mx : Nat}
    (hn : (cle.map Prod.fst).Nodup)
    (hmn : listMin (cle.map Prod.fst) = some mn)
    (hmx : listMax (cle.map Prod.fst) = some mx)
    (hg : gridFill cle = .ok out) :
    out = ffill PyFloat.nan (List.insertionSort leKey (concatOf cle mn mx)) := by
  rcases gridFill_ok_elim hg with ⟨mn', mx', hmn', hmx', hout⟩
  rw [hmn] at hmn'
  rw [hmx] at hmx'
  injection hmn' with he1
  injection hmx' with he2
  rw [← he1, ← he2] at hout
  rw [hout]
  have hkeys : ((ffill PyFloat.nan (List.insertionSort leKey (concatOf cle mn mx))).map
      Prod.fst).Nodup := by
    rw [ffill_map_fst]
    exact merged_keys_nodup mn mx hn
  exact dedupAux_eq_self _ [] hkeys (fun k _ hk => absurd hk (List.not_mem_nil k))

/-- The observed minimum carries an observed value into the union. -/
theorem min_entry_exists {cle : List (Nat × PyFloat)} {mn : Nat}
    (hmn : listMin (cle.map Prod.fst) = some mn) : ∃ v, (mn, v) ∈ cle := by
  rcases List.mem_map.mp (listMin_spec hmn).1 with ⟨p, hp, hfst⟩
  exact ⟨p.2, by rw [← hfst]; exact hp⟩

/-- Looking a key up in a list with distinct keys finds the entry. -/
theorem lookupV_of_mem {l : List (Nat × PyFloat)} (hn : (l.map Prod.fst).Nodup)
    {t : Nat} {v : PyFloat} (h : (t, v) ∈ l) : lookupV l t = some v := by
  induction l with
  | nil => exact absurd h (List.not_mem_nil _)
  | cons q qs ih =>
    rw [List.map_cons, List.nodup_cons] at hn
    by_cases hq : q.1 = t
    · have hqv : q = (t, v) := by
        rcases List.mem_cons.mp h with h1 | h2
        · rw [h1]
        · exact absurd (List.mem_map.mpr ⟨(t, v), h2, by rw [hq]⟩) hn.1
      unfold lookupV
      rw [List.find?_cons_of_pos _ (by rw [decide_eq_true_eq]; exact hq), hqv]
      rfl
    · have h2 : (t, v) ∈ qs := by
        rcases List.mem_cons.mp h with h1 | h2
        · exact absurd (congrArg Prod.fst h1.symm) hq
        · exact h2
      unfold lookupV
      rw [List.find?_cons_of_neg _ (by rw [decide_eq_true_eq]; exact hq)]
      exact ih hn.2 h2

/-! ### The sentinel string cannot parse as a timestamp -/

theorem expectC_eq {c : Char} {l r : List Char} (h : expectC c l = some r) : l = c :: r := by
  cases l with
  | nil => exact Option.noConfusion h
  | cons x xs =>
    have h2 : (if x = c then some xs else none) = some r := h
    by_cases hx : x = c
    · rw [if_pos hx] at h2
      injection h2 with h1
      rw [hx, h1]
    · rw [if_neg hx] at h2
      exact Option.noConfusion h2

theorem count_space_takeWhile_digit (l : List Char) :
    (l.takeWhile Char.isDigit).count ' ' = 0 := by
  rw [List.count_eq_zero]
  intro hmem
  have hd : Char.isDigit ' ' = true := List.mem_takeWhile_imp hmem
  exact absurd hd (by decide)

theorem takeYear_count {l : List Char} {y : Nat} {r : List Char}
    (h : takeYear l = some (y, r)) : l.count ' ' = r.count ' ' := by
  unfold takeYear at h
  by_cases hl : (l.takeWhile Char.isDigit).length = 4
  · rw [if_pos hl] at h
    injection h with h1
    have hr : r = l.dropWhile Char.isDigit := by
      have := congrArg Prod.snd h1
      exact this.symm
    rw [hr]
    conv_lhs => rw [← List.takeWhile_append_dropWhile Char.isDigit l]
    rw [List.count_append, count_space_takeWhile_digit, Nat.zero_add]
  · rw [if_neg hl] at h
    exact Option.noConfusion h

theorem takeCluster_count {m : Nat} {l : List Char} {v : Nat} {r : List Char}
    (h : takeCluster m l = some (v, r)) : l.count ' ' = r.count ' ' := by
  unfold takeCluster at h
  by_cases hl : (l.takeWhile Char.isDigit).length = 0 ∨ m < (l.takeWhile Char.isDigit).length
  · rw [if_pos hl] at h
    exact Option.noConfusion h
  · rw [if_neg hl] at h
    injection h with h1
    have hr : r = l.dropWhile Char.isDigit := by
      have := congrArg Prod.snd h1
      exact this.symm
    rw [hr]
    conv_lhs => rw [← List.takeWhile_append_dropWhile Char.isDigit l]
    rw [List.count_append, count_space_takeWhile_digit, Nat.zero_add]

/-- A string accepted by the timestamp parser contains exactly one space. -/
theorem parseTS_one_space {s : String} {t : Nat} (h : parseTS s = some t) :
    s.toList.count ' ' = 1 := by
  unfold parseTS at h
  rcases Option.bind_eq_some.mp h with ⟨yr, hyr, h⟩
  rcases Option.bind_eq_some.mp h with ⟨r2, hr2, h⟩
  rcases Option.bind_eq_some.mp h with ⟨mo, hmo, h⟩
  rcases Option.bind_eq_some.mp h with ⟨r4, hr4, h⟩
  rcases Option.bind_eq_some.mp h with ⟨dy, hdy, h⟩
  rcases Option.bind_eq_some.mp h with ⟨r6, hr6, h⟩
  rcases Option.bind_eq_some.mp h with ⟨hr, hhr, h⟩
  rcases Option.bind_eq_some.mp h with ⟨r8, hr8, h⟩
  rcases Option.bind_eq_some.mp h with ⟨mi, hmi, h⟩
  rcases Option.bind_eq_some.mp h with ⟨r10, hr10, h⟩
  rcases Option.bind_eq_some.mp h with ⟨sc, hsc, h⟩
  have hend : sc.2 = [] := by
    by_cases hc : sc.2 = [] ∧ 1 ≤ yr.1 ∧ 1 ≤ mo.1 ∧ mo.1 ≤ 12 ∧ 1 ≤ dy.1 ∧
        dy.1 ≤ daysInMonth yr.1 mo.1 ∧ hr.1 ≤ 23 ∧ mi.1 ≤ 59 ∧ sc.1 ≤ 59
    · exact hc.1
    · rw [if_neg hc] at h
      exact Option.noConfusion h
  obtain ⟨y, r1⟩ := yr
  obtain ⟨mov, r3⟩ := mo
  obtain ⟨dv, r5⟩ := dy
  obtain ⟨hv, r7⟩ := hr
  obtain ⟨miv, r9⟩ := mi
  obtain ⟨sv, r11⟩ := sc
  have c1 : s.toList.count ' ' = r1.count ' ' := takeYear_count hyr
  have e1 : r1 = '.' :: r2 := expectC_eq hr2
  have c2 : r2.count ' ' = r3.count ' ' := takeCluster_count hmo
  have e2 : r3 = '.' :: r4 := expectC_eq hr4
  have c3 : r4.count ' ' = r5.count ' ' := takeCluster_count hdy
  have e3 : r5 = ' ' :: r6 := expectC_eq hr6
  have c4 : r6.count ' ' = r7.count ' ' := takeCluster_count hhr
  have e4 : r7 = ':' :: r8 := expectC_eq hr8
  have c5 : r8.count ' ' = r9.count ' ' := takeCluster_count hmi
  have e5 : r9 = ':' :: r10 := expectC_eq hr10
  have c6 : r10.count ' ' = r11.count ' ' := takeCluster_count hsc
  have hend2 : r11 = [] := hend
  rw [c1, e1, List.count_cons, c2, e2, List.count_cons, c3, e3, List.count_cons,
      c4, e4, List.count_cons, c5, e5, List.count_cons, c6, hend2]
  decide

/-- The Boolean substring test agrees with list infixes. -/
theorem hasInfix_iff {needle : List Char} :
    ∀ {l : List Char}, hasInfix needle l = true ↔ ∃ l1 l2, l = l1 ++ needle ++ l2 := by
  intro l
  induction l with
  | nil =>
    unfold hasInfix
    rw [List.isEmpty_iff]
    constructor
    · intro h; exact ⟨[], [], by rw [h]; rfl⟩
    · rintro ⟨l1, l2, hl⟩
      rcases List.append_eq_nil.mp (List.append_eq_nil.mp hl.symm).1 with ⟨_, h2⟩
      exact h2
  | cons c cs ih =>
    unfold hasInfix
    rw [Bool.or_eq_true]
    constructor
    · rintro (h | h)
      · rcases List.isPrefixOf_iff_prefix.mp h with ⟨t, ht⟩
        exact ⟨[], t, by rw [← ht]; rfl⟩
      · rcases ih.mp h with ⟨l1, l2, hl⟩
        exact ⟨c :: l1, l2, by rw [List.cons_append, List.cons_append, ← hl]⟩
    · rintro ⟨l1, l2, hl⟩
      cases l1 with
      | nil =>
        refine Or.inl (List.isPrefixOf_iff_prefix.mpr ⟨l2, ?_⟩)
        rw [List.nil_append] at hl
        rw [← hl]
      | cons d ds =>
        refine Or.inr (ih.mpr ⟨ds, l2, ?_⟩)
        injection hl with h1 h2

/-- A timestamp text containing the end-of-data sentinel always fails to
parse (it contains at least two spaces, an accepted text has exactly one). -/
theorem sentinel_no_parse {s : String}
    (h : hasInfix "end of test".toList s.toList = true) : parseTS s = none := by
  cases hp : parseTS s with
  | none => rfl
  | some t =>
    exfalso
    rcases hasInfix_iff.mp h with ⟨l1, l2, hl⟩
    have hcount := parseTS_one_space hp
    rw [hl, List.count_append, List.count_append] at hcount
    have : ("end of test".toList).count ' ' = 2 := by decide
    omega

/-! ### Rows with a missing timestamp versus rows that raise -/

theorem rowP_ok_elim {r : Row} {p : Option Nat × PyFloat} (h : rowP r = .ok p) :
    ∃ b t, balCoerce r.bal = .ok b ∧ toDT r.time = .ok t ∧ p = (t, b) := by
  unfold rowP at h
  cases hb : balCoerce r.bal with
  | error e =>
    cases e
    rw [hb, ebind_error] at h
    exact Except.noConfusion h
  | ok b =>
    rw [hb, ebind_ok] at h
    cases ht : toDT r.time with
    | error e =>
      cases e
      rw [ht, emap_error] at h
      exact Except.noConfusion h
    | ok t =>
      rw [ht, emap_ok] at h
      injection h with h1
      exact ⟨b, t, rfl, rfl, h1.symm⟩

theorem rowP_none {r : Row} {b : PyFloat} (ht : r.time = none)
    (hb : balCoerce r.bal = .ok b) : rowP r = .ok (none, b) := by
  unfold rowP
  rw [hb, ebind_ok, ht]
  rfl

theorem rowP_some_time {r : Row} {p : Option Nat × PyFloat} {s : String}
    (ht : r.time = some s) (h : rowP r = .ok p) : p.1.isSome = true := by
  rcases rowP_ok_elim h with ⟨b, t, _, hdt, rfl⟩
  rw [ht] at hdt
  have hdt2 : (match parseTS s with
      | some u => (Except.ok (some u) : Except Unit (Option Nat))
      | none => Except.error ()) = Except.ok t := hdt
  cases hp : parseTS s with
  | none => rw [hp] at hdt2; exact Except.noConfusion hdt2
  | some u =>
    rw [hp] at hdt2
    injection hdt2 with h1
    rw [← h1]
    rfl

/-- Filtering out the rows with a missing timestamp before the conversion
has the same effect as dropping their parsed records afterwards, provided
the balances of the dropped rows coerce (they are converted first either
way). -/
theorem mapE_rowP_filter :
    ∀ {rs : List Row}, (∀ r ∈ rs, r.time = none → ∃ b, balCoerce r.bal = .ok b) →
      (∀ l, mapE rowP rs = .ok l →
        mapE rowP (rs.filter (fun r => r.time.isSome)) =
          .ok (l.filter (fun p => p.1.isSome))) ∧
      (mapE rowP rs = .error () →
        mapE rowP (rs.filter (fun r => r.time.isSome)) = .error ()) := by
  intro rs
  induction rs with
  | nil =>
    intro _
    exact ⟨fun l hl => by
      rw [mapE_nil] at hl
      injection hl with h1
      rw [← h1]
      rfl,
      fun h => Except.noConfusion h⟩
  | cons r rs' ih =>
    intro H
    have H' : ∀ r' ∈ rs', r'.time = none → ∃ b, balCoerce r'.bal = .ok b :=
      fun r' hr' => H r' (List.mem_cons_of_mem r hr')
    cases htime : r.time with
    | none =>
      rcases H r (List.mem_cons_self r rs') htime with ⟨b, hb⟩
      have hrp : rowP r = .ok (none, b) := rowP_none htime hb
      have hfilter : (r :: rs').filter (fun r => r.time.isSome) =
          rs'.filter (fun r => r.time.isSome) := by
        rw [List.filter_cons_of_neg (by rw [htime]; simp)]
      constructor
      · intro l hl
        rw [mapE_cons, hrp, ebind_ok] at hl
        cases hmt : mapE rowP rs' with
        | error e =>
          cases e
          rw [hmt, emap_error] at hl
          exact Except.noConfusion hl
        | ok l' =>
          rw [hmt, emap_ok] at hl
          injection hl with h1
          have hdrop : ((none, b) :: l').filter (fun p => p.1.isSome) =
              l'.filter (fun p => p.1.isSome) :=
            List.filter_cons_of_neg (by simp)
          rw [← h1, hfilter, hdrop]
          exact (ih H').1 l' hmt
      · intro hl
        rw [mapE_cons, hrp, ebind_ok] at hl
        cases hmt : mapE rowP rs' with
        | error e =>
          cases e
          rw [hfilter]
          exact (ih H').2 hmt
        | ok l' =>
          rw [hmt, emap_ok] at hl
          exact Except.noConfusion hl
    | some s =>
      have hfilter : (r :: rs').filter (fun r => r.time.isSome) =
          r :: rs'.filter (fun r => r.time.isSome) := by
        rw [List.filter_cons_of_pos (by rw [htime]; simp)]
      constructor
      · intro l hl
        rw [mapE_cons] at hl
        cases hrp : rowP r with
        | error e =>
          cases e
          rw [hrp, ebind_error] at hl
          exact Except.noConfusion hl
        | ok p =>
          rw [hrp, ebind_ok] at hl
          cases hmt : mapE rowP rs' with
          | error e =>
            cases e
            rw [hmt, emap_error] at hl
            exact Except.noConfusion hl
          | ok l' =>
            rw [hmt, emap_ok] at hl
            injection hl with h1
            have hkeep : (p :: l').filter (fun q => q.1.isSome) =
                p :: l'.filter (fun q => q.1.isSome) :=
              List.filter_cons_of_pos (rowP_some_time htime hrp)
            rw [← h1, hfilter, mapE_cons, hrp, ebind_ok, (ih H').1 l' hmt, emap_ok, hkeep]
      · intro hl
        rw [mapE_cons] at hl
        cases hrp : rowP r with
        | error e =>
          cases e
          rw [hfilter, mapE_cons, hrp, ebind_error]
        | ok p =>
          rw [hrp, ebind_ok] at hl
          cases hmt : mapE rowP rs' with
          | error e =>
            cases e
            rw [hfilter, mapE_cons, hrp, ebind_ok, (ih H').2 hmt, emap_error]
          | ok l' =>
            rw [hmt, emap_ok] at hl
            exact Except.noConfusion hl

/-- Dropping NaT records commutes with deduplication and with filtering the
NaT records out earlier, as long as the two seen-key sets agree on real
keys. -/
theorem dedupAux_dropNaT :
    ∀ (l : List (Option Nat × PyFloat)) (seen seen' : List (Option Nat)),
      (∀ t : Nat, some t ∈ seen ↔ some t ∈ seen') →
      dropNaT (dedupAux seen l) =
        dropNaT (dedupAux seen' (l.filter (fun p => p.1.isSome))) := by
  intro l
  induction l with
  | nil => intro seen seen' _; rfl
  | cons q qs ih =>
    intro seen seen' hagree
    obtain ⟨o, v⟩ := q
    cases o with
    | none =>
      have hfilter : ((none, v) :: qs).filter (fun p => p.1.isSome) =
          qs.filter (fun p => p.1.isSome) := by
        rw [List.filter_cons_of_neg (by simp)]
      rw [hfilter, dedupAux]
      by_cases hseen : (none : Option Nat) ∈ seen
      · rw [if_pos hseen]
        exact ih seen seen' hagree
      · rw [if_neg hseen]
        rw [dropNaT_cons_none]
        refine ih (none :: seen) seen' ?_
        intro t
        rw [← hagree t]
        constructor
        · intro h
          rcases List.mem_cons.mp h with h1 | h2
          · exact Option.noConfusion h1
          · exact h2
        · intro h; exact List.mem_cons_of_mem none h
    | some t0 =>
      have hfilter : ((some t0, v) :: qs).filter (fun p => p.1.isSome) =
          (some t0, v) :: qs.filter (fun p => p.1.isSome) := by
        rw [List.filter_cons_of_pos (by simp)]
      rw [hfilter, dedupAux, dedupAux]
      by_cases hseen : (some t0 : Option Nat) ∈ seen
      · rw [if_pos hseen, if_pos ((hagree t0).mp hseen)]
        exact ih seen seen' hagree
      · rw [if_neg hseen, if_neg (fun h => hseen ((hagree t0).mpr h))]
        rw [dropNaT_cons_some, dropNaT_cons_some]
        congr 1
        refine ih (some t0 :: seen) (some t0 :: seen') ?_
        intro t
        constructor
        · intro h
          rcases List.mem_cons.mp h with h1 | h2
          · exact h1 ▸ List.mem_cons_self _ _
          · exact List.mem_cons_of_mem _ ((hagree t).mp h2)
        · intro h
          rcases List.mem_cons.mp h with h1 | h2
          · exact h1 ▸ List.mem_cons_self _ _
          · exact List.mem_cons_of_mem _ ((hagree t).mpr h2)

/-- Membership in the cleaned series, reduced to the deduplicated parsed
list. -/
theorem cleaned_mem_iff {csv : CSVFile} {cle : List (Nat × PyFloat)}
    {l : List (Option Nat × PyFloat)}
    (hl : parsedOf csv = .ok l) (hc : cleanedOf csv = .ok cle) :
    ∀ (t : Nat) (v : PyFloat), ((t, v) ∈ cle ↔ (some t, v) ∈ dedupKeys l) := by
  rcases cleanedOf_ok_elim hc with ⟨l', hl', hcle⟩
  rw [hl] at hl'
  injection hl' with he
  rw [← he] at hcle
  intro t v
  rw [hcle, (sortK_perm _).mem_iff]
  exact dropNaT_mem

/-- A raising row (bad balance text, or a present timestamp text that does
not match the format) makes the whole run return `None`. -/
theorem rows_error_none (csv : CSVFile)
    (hcols : "時間" ∈ csv.columns ∧ "残高" ∈ csv.columns)
    (hbad : (∃ r ∈ csv.rows, balCoerce r.bal = .error ()) ∨
            (∃ r ∈ csv.rows, ∃ s, r.time = some s ∧ parseTS s = none)) :
    process_csv csv = none := by
  have hsel : selectRows csv = .ok csv.rows := by
    unfold selectRows
    rw [if_pos hcols]
  have hrowbad : ∃ r ∈ csv.rows, rowP r = .error () := by
    rcases hbad with ⟨r, hr, hb⟩ | ⟨r, hr, s, hs, hps⟩
    · exact ⟨r, hr, by unfold rowP; rw [hb, ebind_error]⟩
    · refine ⟨r, hr, ?_⟩
      unfold rowP
      cases hbc : balCoerce r.bal with
      | error e => cases e; rw [ebind_error]
      | ok b =>
        rw [ebind_ok]
        have htd : toDT r.time = .error () := by
          rw [hs]
          show (match parseTS s with
            | some t => (Except.ok (some t) : Except Unit (Option Nat))
            | none => Except.error ()) = Except.error ()
          rw [hps]
        rw [htd, emap_error]
  have hmap : mapE rowP csv.rows = .error () := mapE_error_iff.mpr hrowbad
  have hp : parsedOf csv = .error () := by
    rw [parsedOf_eq_mapE_rowP, hsel, ebind_ok, hmap]
  unfold process_csv processBody cleanedOf
  rw [hp, emap_error, ebind_error]
  rfl

/-- A missing required column makes the whole run return `None`. -/
theorem cols_missing_none (csv : CSVFile)
    (hcols : ¬("時間" ∈ csv.columns ∧ "残高" ∈ csv.columns)) :
    process_csv csv = none := by
  have hsel : selectRows csv = .error () := by
    unfold selectRows
    rw [if_neg hcols]
  unfold process_csv processBody cleanedOf parsedOf
  rw [hsel, ebind_error, emap_error, ebind_error]
  rfl

/-- `selectRows` written out on the two structure fields. -/
theorem selectRows_mk (cols : List String) (rows : List Row) :
    selectRows ⟨cols, rows⟩ =
      if "時間" ∈ cols ∧ "残高" ∈ cols then .ok rows else .error () := rfl

/-! ### The claims -/

/-- C6: for a non-empty cleaned Series with minimum `mn` and maximum `mx`
(so `mn ≤ mx`), the grid `dateRange mn mx` used by `process_csv` consists of
exactly the instants `mn + 15min·k` that are at most `mx` (so `mx` itself
appears only when it falls on the grid), and its size is
`⌊(mx − mn)/15min⌋ + 1`. -/
theorem C6_grid_structure (mn mx : Nat) (h : mn ≤ mx) :
    (dateRange mn mx).length = (mx - mn) / 900 + 1 ∧
    ∀ t, (t ∈ dateRange mn mx ↔ ∃ k, t = mn + 900 * k ∧ t ≤ mx) :=
  ⟨dateRange_length h, fun _ => dateRange_mem h⟩

/-- Witness for C6 on the concrete span 00:00–00:30 (three grid points). -/
theorem C6_grid_structure_witness :
    (0 : Nat) ≤ 1800 ∧
    ((dateRange 0 1800).length = (1800 - 0) / 900 + 1 ∧
      ∀ t, (t ∈ dateRange 0 1800 ↔ ∃ k, t = 0 + 900 * k ∧ t ≤ 1800)) :=
  ⟨by decide, C6_grid_structure 0 1800 (by decide)⟩

/-- C5: `process_csv` is total — it either returns a result or the absence
signal `None`, any raise inside the body becomes `None` (no partial result
escapes), and in particular an input that is empty after cleaning yields
`None` rather than a crash. -/
theorem C5_never_raises (csv : CSVFile) :
    (process_csv csv = none ∨ ∃ out, process_csv csv = some out) ∧
    (∀ e, processBody csv = .error e → process_csv csv = none) ∧
    (cleanedOf csv = .ok [] → process_csv csv = none) := by
  refine ⟨?_, ?_, ?_⟩
  · cases h : process_csv csv with
    | none => exact Or.inl rfl
    | some out => exact Or.inr ⟨out, rfl⟩
  · intro e he
    unfold process_csv
    rw [he]
    rfl
  · intro hc
    unfold process_csv processBody
    rw [hc, ebind_ok]
    rfl

/-- Witness for C5: the header-only input cleans to the empty series and
the run returns `None`. -/
theorem C5_never_raises_witness :
    cleanedOf csvEmpty = .ok [] ∧ process_csv csvEmpty = none :=
  ⟨by decide, (C5_never_raises csvEmpty).2.2 (by decide)⟩

/-- C10 (refinement): the concatenation of the cleaned rows with the
grid-difference placeholders never carries two rows with one timestamp, so
the final `drop_duplicates` pass removes nothing: the pipeline with that
pass equals the pipeline without it. -/
theorem C10_final_dedup_no_op :
    (∀ csv, process_csv csv = process_csvND csv) ∧
    (∀ (cle : List (Nat × PyFloat)) (mn mx : Nat), (cle.map Prod.fst).Nodup →
      ((concatOf cle mn mx).map Prod.fst).Nodup) := by
  constructor
  · intro csv
    unfold process_csv process_csvND processBody
    cases hc : cleanedOf csv with
    | error e => cases e; rfl
    | ok cle =>
      rw [ebind_ok, ebind_ok]
      have hn := cleaned_keys_nodup hc
      unfold gridFill gridFillND
      cases hmn : listMin (cle.map Prod.fst) with
      | none =>
        cases hmx : listMax (cle.map Prod.fst) <;> rfl
      | some mn =>
        cases hmx : listMax (cle.map Prod.fst) with
        | none => rfl
        | some mx =>
          have hkeys : ((ffill PyFloat.nan
              (List.insertionSort leKey (concatOf cle mn mx))).map Prod.fst).Nodup := by
            rw [ffill_map_fst]
            exact merged_keys_nodup mn mx hn
          have hde : dedupKeys (ffill PyFloat.nan
              (List.insertionSort leKey (concatOf cle mn mx))) =
              ffill PyFloat.nan (List.insertionSort leKey (concatOf cle mn mx)) :=
            dedupAux_eq_self _ [] hkeys (fun k _ hk => absurd hk (List.not_mem_nil k))
          exact congrArg some hde
  · intro cle mn mx hn
    exact concatOf_keys_nodup mn mx hn

/-- Witness for C10 on the scenario-2 observations: two observed rows plus
two placeholders, all four timestamps distinct. -/
theorem C10_final_dedup_no_op_witness :
    (([(epochSecs 2024 1 1 0 0 0, PyFloat.num 1000),
       (epochSecs 2024 1 1 0 45 0, PyFloat.num 2000)].map Prod.fst).Nodup) ∧
    (((concatOf [(epochSecs 2024 1 1 0 0 0, PyFloat.num 1000),
        (epochSecs 2024 1 1 0 45 0, PyFloat.num 2000)]
        (epochSecs 2024 1 1 0 0 0) (epochSecs 2024 1 1 0 45 0)).map Prod.fst).Nodup) :=
  ⟨by decide,
   (C10_final_dedup_no_op).2 _ (epochSecs 2024 1 1 0 0 0) (epochSecs 2024 1 1 0 45 0)
     (by decide)⟩

/-- C9 (counterexample): the claim says *all* whitespace is removed before
parsing the balance.  On the balance text `"1 050"` written with a
non-breaking space (U+00A0), removing all whitespace would parse `1050.0`,
but the code removes only ASCII spaces and the conversion raises. -/
theorem C9_counterexample :
    balCoerce (some "1 050") = .error () ∧
    balCoerceAllWS (some "1 050") = .ok (.num 1050) := by
  constructor
  · decide
  · decide

/-- C9 (amended): balance coercion converts the cell to text, removes
exactly the ASCII space characters (no other whitespace), and parses the
result as a float; in particular `"1 050"` (ASCII space) yields `1050.0`. -/
theorem C9_space_removal :
    (∀ l : List Char, removeSpaces l = l.filter (fun c => decide (c ≠ ' '))) ∧
    balCoerce (some "1 050") = .ok (.num 1050) ∧
    balCoerce (some "1000") = .ok (.num 1000) := by
  refine ⟨?_, by decide, by decide⟩
  intro l
  induction l with
  | nil => rfl
  | cons c cs ih =>
    unfold removeSpaces
    by_cases hc : c = ' '
    · rw [if_pos hc, List.filter_cons_of_neg (by simp [hc]), ih]
    · rw [if_neg hc, List.filter_cons_of_pos (by simp [hc]), ih]

/-- C4 (counterexample): `process_csv` succeeds on a one-row input, but
re-running it on the file it wrote does not reproduce the result — the
output header says `DateTime,Balance` while the code selects `時間`/`残高`,
so the second run returns `None`. -/
theorem C4_counterexample :
    process_csv csvOne = some [(epochSecs 2024 1 1 0 0 0, .num 1000)] ∧
    process_csv (outputCSVFile [(epochSecs 2024 1 1 0 0 0, .num 1000)]) ≠
      some [(epochSecs 2024 1 1 0 0 0, .num 1000)] := by
  constructor
  · decide
  · decide

/-- C4 (amended): the pipeline is *not* idempotent at the file level: for
every input on which `process_csv` succeeds, running it again on the file
it produced returns `None`, because that file's header carries the renamed
columns `DateTime,Balance` and the column selection `df[['時間','残高']]`
raises. -/
theorem C4_not_idempotent (csv : CSVFile) (out : List (Nat × PyFloat))
    (h : process_csv csv = some out) : process_csv (outputCSVFile out) = none := by
  have hsel : selectRows (outputCSVFile out) = .error () := by
    have hnotin : "時間" ∉ (["DateTime", "Balance"] : List String) := by decide
    unfold selectRows outputCSVFile
    rw [if_neg (fun h => hnotin h.1)]
  unfold process_csv processBody cleanedOf parsedOf
  rw [hsel, ebind_error, emap_error, ebind_error]
  rfl

/-- Witness for C4: the one-row input again. -/
theorem C4_not_idempotent_witness :
    process_csv csvOne = some [(epochSecs 2024 1 1 0 0 0, .num 1000)] ∧
    process_csv (outputCSVFile [(epochSecs 2024 1 1 0 0 0, .num 1000)]) = none :=
  ⟨by decide, C4_not_idempotent csvOne [(epochSecs 2024 1 1 0 0 0, .num 1000)] (by decide)⟩

/-- C2 (counterexample): the claim says a row with an unparseable balance
is dropped and processing continues.  Adding the row
`("2024.01.01 00:15:00", "abc")` to a clean one-row input makes the whole
run return `None`, while the input without that row succeeds — the bad row
is fatal, not dropped. -/
theorem C2_counterexample :
    process_csv csvBadBal = none ∧
    process_csv csvOne = some [(epochSecs 2024 1 1 0 0 0, .num 1000)] := by
  constructor
  · decide
  · decide

/-- C2 (amended): a row whose balance text does not parse as a float, or
whose present (non-missing) timestamp text does not match the format,
aborts the whole run: `process_csv` returns `None`; such rows are not
dropped individually.  (Only rows with a *missing* timestamp are dropped.) -/
theorem C2_bad_rows_fatal (csv : CSVFile)
    (hcols : "時間" ∈ csv.columns ∧ "残高" ∈ csv.columns)
    (hbad : (∃ r ∈ csv.rows, balCoerce r.bal = .error ()) ∨
            (∃ r ∈ csv.rows, ∃ s, r.time = some s ∧ parseTS s = none)) :
    process_csv csv = none :=
  rows_error_none csv hcols hbad

/-- C3 (counterexample): the claim says a summary row is excluded before
any further processing.  Adding the sentinel row `("end of test", "0")` to
a clean one-row input makes the whole run return `None` instead of the
result the remaining row would give — the row is not excluded, it aborts
the run. -/
theorem C3_counterexample :
    is_summary_row (mkRow "end of test" "0") = true ∧
    process_csv csvSentinel = none ∧
    process_csv csvOne = some [(epochSecs 2024 1 1 0 0 0, .num 1000)] := by
  refine ⟨by decide, by decide, by decide⟩

/-- C3 (amended): of the two kinds of summary row, only those with a
*missing* timestamp cell are effectively dropped (provided their balance
text still coerces — balances are converted first): the run result equals
the result on the input without those rows.  A row whose timestamp text
contains the `'end of test'` sentinel instead aborts the whole run with
`None`. -/
theorem C3_summary_rows (csv : CSVFile) :
    ((∀ r ∈ csv.rows, r.time = none → ∃ b, balCoerce r.bal = .ok b) →
      process_csv csv =
        process_csv ⟨csv.columns, csv.rows.filter (fun r => r.time.isSome)⟩) ∧
    ((∃ r ∈ csv.rows, ∃ s, r.time = some s ∧
        hasInfix "end of test".toList s.toList = true) → process_csv csv = none) := by
  constructor
  · intro H
    obtain ⟨cols, rows⟩ := csv
    have H2 : ∀ r ∈ rows, r.time = none → ∃ b, balCoerce r.bal = .ok b := H
    have hcle : cleanedOf ⟨cols, rows⟩ =
        cleanedOf ⟨cols, rows.filter (fun r => r.time.isSome)⟩ := by
      unfold cleanedOf
      rw [parsedOf_eq_mapE_rowP, parsedOf_eq_mapE_rowP, selectRows_mk, selectRows_mk]
      by_cases hcols : "時間" ∈ cols ∧ "残高" ∈ cols
      · rw [if_pos hcols, if_pos hcols, ebind_ok, ebind_ok]
        cases hm : mapE rowP rows with
        | error e =>
          cases e
          rw [(mapE_rowP_filter H2).2 hm]
        | ok l =>
          rw [(mapE_rowP_filter H2).1 l hm, emap_ok, emap_ok]
          have hdd : dropNaT (dedupKeys l) =
              dropNaT (dedupKeys (l.filter (fun p => p.1.isSome))) :=
            dedupAux_dropNaT l [] [] (fun _ => Iff.rfl)
          unfold dedupKeys at hdd
          rw [show dedupKeys l = dedupAux [] l from rfl,
              show dedupKeys (l.filter (fun p => p.1.isSome)) =
                dedupAux [] (l.filter (fun p => p.1.isSome)) from rfl, hdd]
      · rw [if_neg hcols, if_neg hcols]
    unfold process_csv processBody
    rw [hcle]
  · rintro ⟨r, hr, str, hs, hinf⟩
    by_cases hcols : "時間" ∈ csv.columns ∧ "残高" ∈ csv.columns
    · exact rows_error_none csv hcols (Or.inr ⟨r, hr, str, hs, sentinel_no_parse hinf⟩)
    · exact cols_missing_none csv hcols

/-- Witness for C3: a missing-timestamp row is dropped without changing the
rest of the result, and the sentinel input returns `None`. -/
theorem C3_summary_rows_witness :
    (∀ r ∈ csvNaTRow.rows, r.time = none → ∃ b, balCoerce r.bal = .ok b) ∧
    process_csv csvNaTRow =
      process_csv ⟨csvNaTRow.columns, csvNaTRow.rows.filter (fun r => r.time.isSome)⟩ ∧
    (∃ r ∈ csvSentinel.rows, ∃ s, r.time = some s ∧
      hasInfix "end of test".toList s.toList = true) ∧
    process_csv csvSentinel = none := by
  have H : ∀ r ∈ csvNaTRow.rows, r.time = none → ∃ b, balCoerce r.bal = .ok b := by
    intro r hr ht
    rcases List.mem_cons.mp hr with h1 | h2
    · rw [h1] at ht; exact Option.noConfusion ht
    · rcases List.mem_cons.mp h2 with h3 | h4
      · exact ⟨.num 5, by rw [h3]; decide⟩
      · exact absurd h4 (List.not_mem_nil r)
  have HS : ∃ r ∈ csvSentinel.rows, ∃ s, r.time = some s ∧
      hasInfix "end of test".toList s.toList = true :=
    ⟨mkRow "end of test" "0", by decide, "end of test", by decide, by decide⟩
  exact ⟨H, (C3_summary_rows csvNaTRow).1 H, HS, (C3_summary_rows csvSentinel).2 HS⟩

/-- Witness for C2: the input with the unparseable balance `"abc"`. -/
theorem C2_bad_rows_fatal_witness :
    ("時間" ∈ csvBadBal.columns ∧ "残高" ∈ csvBadBal.columns) ∧
    (∃ r ∈ csvBadBal.rows, balCoerce r.bal = .error ()) ∧
    process_csv csvBadBal = none := by
  refine ⟨by decide, ⟨mkRow "2024.01.01 00:15:00" "abc", by decide, by decide⟩, ?_⟩
  exact C2_bad_rows_fatal csvBadBal (by decide)
    (Or.inl ⟨mkRow "2024.01.01 00:15:00" "abc", by decide, by decide⟩)

/-- C8: rows sharing a parsed timestamp are collapsed to the first
occurrence in original input order: the cleaned series holds at most one
record per timestamp, that record is the first parsed row with that
timestamp, every duplicated timestamp still has a record, and (for an
observed, non-NaN balance) it is that first-seen balance that appears in
the final output. -/
theorem C8_first_occurrence_kept (csv : CSVFile) (l : List (Option Nat × PyFloat))
    (cle out : List (Nat × PyFloat)) (t : Nat)
    (hl : parsedOf csv = .ok l) (hc : cleanedOf csv = .ok cle)
    (ho : process_csv csv = some out) :
    (cle.map Prod.fst).count t ≤ 1 ∧
    (∀ v, (t, v) ∈ cle → firstParsedAt l t = some v) ∧
    ((∃ v, (some t, v) ∈ l) → ∃ v, (t, v) ∈ cle) ∧
    (∀ v, (t, v) ∈ cle → v ≠ .nan → lookupV out t = some v) := by
  have hnod := cleaned_keys_nodup hc
  refine ⟨?_, ?_, ?_, ?_⟩
  · exact List.nodup_iff_count_le_one.mp hnod t
  · intro v hv
    have hd : (some t, v) ∈ dedupKeys l := (cleaned_mem_iff hl hc t v).mp hv
    have hfind := dedupAux_find l [] (some t) v hd (List.not_mem_nil _)
    unfold firstParsedAt
    rw [hfind]
    rfl
  · rintro ⟨v0, hv0⟩
    have hkey : (some t) ∈ (dedupKeys l).map Prod.fst :=
      dedupAux_mem_keys l [] (some t) (List.mem_map.mpr ⟨(some t, v0), hv0, rfl⟩)
        (List.not_mem_nil _)
    rcases List.mem_map.mp hkey with ⟨p, hp, hpfst⟩
    refine ⟨p.2, (cleaned_mem_iff hl hc t p.2).mpr ?_⟩
    have hpe : p = (some t, p.2) := by
      rw [← hpfst]
    rw [← hpe]
    exact hp
  · intro v hv hnnv
    rcases process_csv_some_elim ho with ⟨cle', hc', hg⟩
    rw [hc] at hc'
    injection hc' with he
    rcases gridFill_ok_elim hg with ⟨mn, mx, hmn, hmx, _⟩
    rw [← he] at hmn hmx hg
    have hout : out = ffill PyFloat.nan (List.insertionSort leKey (concatOf cle mn mx)) :=
      gridFill_eq hnod hmn hmx hg
    have hpw := merged_pairwise mn mx hnod
    have hmem : (t, v) ∈ List.insertionSort leKey (concatOf cle mn mx) :=
      merged_mem.mpr (concatOf_mem.mpr (Or.inl hv))
    have hval : v = lastNN PyFloat.nan
        ((List.insertionSort leKey (concatOf cle mn mx)).filter
          (fun p => decide (p.1 ≤ t))) := by
      rw [filter_le_split hpw hmem, lastNN_append, lastNN_cons, if_neg hnnv, lastNN_nil]
    have hmo : (t, v) ∈ out := by
      rw [hout]
      exact (ffill_mem_iff hpw PyFloat.nan t v).mpr ⟨⟨v, hmem⟩, hval⟩
    have hnodout : (out.map Prod.fst).Nodup := by
      rw [hout, ffill_map_fst]
      exact merged_keys_nodup mn mx hnod
    exact lookupV_of_mem hnodout hmo

/-- Witness for C8: scenario 3 — `00:15:00` appears twice with balances
`500` then `600`; the cleaned series and the output keep `500`. -/
theorem C8_first_occurrence_kept_witness :
    parsedOf csvDupTS = .ok
      [(some (epochSecs 2024 1 1 0 0 0), PyFloat.num 400),
       (some (epochSecs 2024 1 1 0 15 0), PyFloat.num 500),
       (some (epochSecs 2024 1 1 0 15 0), PyFloat.num 600)] ∧
    cleanedOf csvDupTS = .ok
      [(epochSecs 2024 1 1 0 0 0, PyFloat.num 400), (epochSecs 2024 1 1 0 15 0, PyFloat.num 500)] ∧
    process_csv csvDupTS = some
      [(epochSecs 2024 1 1 0 0 0, PyFloat.num 400), (epochSecs 2024 1 1 0 15 0, PyFloat.num 500)] ∧
    (([(epochSecs 2024 1 1 0 0 0, PyFloat.num 400),
       (epochSecs 2024 1 1 0 15 0, PyFloat.num 500)].map Prod.fst).count
        (epochSecs 2024 1 1 0 15 0) ≤ 1 ∧
     (∀ v, (epochSecs 2024 1 1 0 15 0, v) ∈
        [(epochSecs 2024 1 1 0 0 0, PyFloat.num 400),
         (epochSecs 2024 1 1 0 15 0, PyFloat.num 500)] →
        firstParsedAt
          [(some (epochSecs 2024 1 1 0 0 0), PyFloat.num 400),
           (some (epochSecs 2024 1 1 0 15 0), PyFloat.num 500),
           (some (epochSecs 2024 1 1 0 15 0), PyFloat.num 600)]
          (epochSecs 2024 1 1 0 15 0) = some v) ∧
     ((∃ v, (some (epochSecs 2024 1 1 0 15 0), v) ∈
        [(some (epochSecs 2024 1 1 0 0 0), PyFloat.num 400),
         (some (epochSecs 2024 1 1 0 15 0), PyFloat.num 500),
         (some (epochSecs 2024 1 1 0 15 0), PyFloat.num 600)]) →
       ∃ v, (epochSecs 2024 1 1 0 15 0, v) ∈
        [(epochSecs 2024 1 1 0 0 0, PyFloat.num 400),
         (epochSecs 2024 1 1 0 15 0, PyFloat.num 500)]) ∧
     (∀ v, (epochSecs 2024 1 1 0 15 0, v) ∈
        [(epochSecs 2024 1 1 0 0 0, PyFloat.num 400),
         (epochSecs 2024 1 1 0 15 0, PyFloat.num 500)] → v ≠ .nan →
        lookupV
          [(epochSecs 2024 1 1 0 0 0, PyFloat.num 400),
           (epochSecs 2024 1 1 0 15 0, PyFloat.num 500)]
          (epochSecs 2024 1 1 0 15 0) = some v)) := by
  refine ⟨by decide, by decide, by decide, ?_⟩
  exact C8_first_occurrence_kept csvDupTS
    [(some (epochSecs 2024 1 1 0 0 0), PyFloat.num 400),
     (some (epochSecs 2024 1 1 0 15 0), PyFloat.num 500),
     (some (epochSecs 2024 1 1 0 15 0), PyFloat.num 600)]
    [(epochSecs 2024 1 1 0 0 0, PyFloat.num 400),
     (epochSecs 2024 1 1 0 15 0, PyFloat.num 500)]
    [(epochSecs 2024 1 1 0 0 0, PyFloat.num 400),
     (epochSecs 2024 1 1 0 15 0, PyFloat.num 500)]
    (epochSecs 2024 1 1 0 15 0)
    (by decide) (by decide) (by decide)

/-- C1 (counterexample): the claim says the output has records exactly at
the grid instants.  With observations at 00:00:00 and 00:07:00, the
cleaned minimum is 00:00:00, the maximum 00:07:00, the grid anchored at
the minimum is the single instant 00:00:00 — yet the output also carries a
record at 00:07:00, a timestamp outside the grid.  Moreover a missing
balance cell on the earliest observation survives to the output as NaN, so
not every balance is populated either. -/
theorem C1_counterexample :
    cleanedOf csvOff = .ok
      [(epochSecs 2024 1 1 0 0 0, PyFloat.num 1000),
       (epochSecs 2024 1 1 0 7 0, PyFloat.num 1100)] ∧
    listMin [epochSecs 2024 1 1 0 0 0, epochSecs 2024 1 1 0 7 0] =
      some (epochSecs 2024 1 1 0 0 0) ∧
    listMax [epochSecs 2024 1 1 0 0 0, epochSecs 2024 1 1 0 7 0] =
      some (epochSecs 2024 1 1 0 7 0) ∧
    process_csv csvOff = some
      [(epochSecs 2024 1 1 0 0 0, PyFloat.num 1000),
       (epochSecs 2024 1 1 0 7 0, PyFloat.num 1100)] ∧
    epochSecs 2024 1 1 0 7 0 ∈
      ([(epochSecs 2024 1 1 0 0 0, PyFloat.num 1000),
        (epochSecs 2024 1 1 0 7 0, PyFloat.num 1100)].map Prod.fst) ∧
    epochSecs 2024 1 1 0 7 0 ∉
      dateRange (epochSecs 2024 1 1 0 0 0) (epochSecs 2024 1 1 0 7 0) ∧
    process_csv csvNaNBal = some
      [(epochSecs 2024 1 1 0 0 0, PyFloat.nan),
       (epochSecs 2024 1 1 0 15 0, PyFloat.num 7)] ∧
    (epochSecs 2024 1 1 0 0 0, PyFloat.nan) ∈
      [(epochSecs 2024 1 1 0 0 0, PyFloat.nan),
       (epochSecs 2024 1 1 0 15 0, PyFloat.num 7)] := by
  refine ⟨by decide, by decide, by decide, by decide, by decide, by decide, by decide,
    by decide⟩

/-- C1 (amended): when every cleaned balance is a real (non-NaN) number,
the output of `process_csv` has strictly increasing timestamps consisting
of exactly the grid instants *plus* every observed timestamp (observed
timestamps off the grid are kept, so records outside the grid do occur),
one record each, and every balance is populated. -/
theorem C1_output_shape (csv : CSVFile) (out cle : List (Nat × PyFloat)) (mn mx : Nat)
    (ho : process_csv csv = some out) (hc : cleanedOf csv = .ok cle)
    (hmn : listMin (cle.map Prod.fst) = some mn)
    (hmx : listMax (cle.map Prod.fst) = some mx)
    (hnn : ∀ p ∈ cle, p.2 ≠ PyFloat.nan) :
    List.Pairwise (fun a b : Nat => a < b) (out.map Prod.fst) ∧
    (∀ t, (t ∈ out.map Prod.fst ↔ (t ∈ dateRange mn mx ∨ t ∈ cle.map Prod.fst))) ∧
    (∀ p ∈ out, p.2 ≠ PyFloat.nan) := by
  have hnod := cleaned_keys_nodup hc
  rcases process_csv_some_elim ho with ⟨cle', hc', hg⟩
  rw [hc] at hc'
  injection hc' with he
  rw [← he] at hg
  have hout : out = ffill PyFloat.nan (List.insertionSort leKey (concatOf cle mn mx)) :=
    gridFill_eq hnod hmn hmx hg
  have hpw := merged_pairwise mn mx hnod
  refine ⟨?_, ?_, ?_⟩
  · rw [hout, ffill_map_fst]
    exact (List.pairwise_map).mpr hpw
  · intro t
    rw [hout, ffill_map_fst, merged_keys_mem]
    exact or_comm
  · intro p hp
    rcases min_entry_exists hmn with ⟨vmn, hvmn⟩
    have hkey : p.1 ∈ (List.insertionSort leKey (concatOf cle mn mx)).map Prod.fst := by
      have : p.1 ∈ out.map Prod.fst := List.mem_map.mpr ⟨p, hp, rfl⟩
      rw [hout, ffill_map_fst] at this
      exact this
    have hmnle : mn ≤ p.1 := merged_keys_ge hmn hkey
    have hmnmem : (mn, vmn) ∈ (List.insertionSort leKey (concatOf cle mn mx)).filter
        (fun q => decide (q.1 ≤ p.1)) :=
      List.mem_filter.mpr ⟨merged_mem.mpr (concatOf_mem.mpr (Or.inl hvmn)),
        by rw [decide_eq_true_eq]; exact hmnle⟩
    rw [hout] at hp
    have hpe : (p.1, p.2) ∈ ffill PyFloat.nan
        (List.insertionSort leKey (concatOf cle mn mx)) := hp
    rcases (ffill_mem_iff hpw PyFloat.nan p.1 p.2).mp hpe with ⟨_, hval⟩
    rw [hval]
    exact lastNN_ne_nan_of_mem hmnmem (hnn (mn, vmn) hvmn)

/-- Witness for C1 on scenario 2: observations at 00:00 and 00:45, output
at the four grid instants. -/
theorem C1_output_shape_witness :
    process_csv csvGap = some outGap ∧
    cleanedOf csvGap = .ok
      [(epochSecs 2024 1 1 0 0 0, PyFloat.num 1000),
       (epochSecs 2024 1 1 0 45 0, PyFloat.num 2000)] ∧
    (List.Pairwise (fun a b : Nat => a < b) (outGap.map Prod.fst) ∧
     (∀ t, (t ∈ outGap.map Prod.fst ↔
        (t ∈ dateRange (epochSecs 2024 1 1 0 0 0) (epochSecs 2024 1 1 0 45 0) ∨
         t ∈ ([(epochSecs 2024 1 1 0 0 0, PyFloat.num 1000),
               (epochSecs 2024 1 1 0 45 0, PyFloat.num 2000)].map Prod.fst)))) ∧
     (∀ p ∈ outGap, p.2 ≠ PyFloat.nan)) := by
  refine ⟨by decide, by decide, ?_⟩
  exact C1_output_shape csvGap outGap
    [(epochSecs 2024 1 1 0 0 0, PyFloat.num 1000),
     (epochSecs 2024 1 1 0 45 0, PyFloat.num 2000)]
    (epochSecs 2024 1 1 0 0 0) (epochSecs 2024 1 1 0 45 0)
    (by decide) (by decide) (by decide) (by decide)
    (by intro p hp; rcases List.mem_cons.mp hp with h1 | h2
        · rw [h1]; decide
        · rcases List.mem_cons.mp h2 with h3 | h4
          · rw [h3]; decide
          · exact absurd h4 (List.not_mem_nil p))

/-- C7: every synthesized (originally missing) grid instant in the output
carries the balance of the most recent earlier observed instant — there is
an observed record strictly before it, latest among those, whose balance
is the output balance at the synthesized instant (stated for inputs whose
observed balances are real numbers, i.e. not NaN). -/
theorem C7_forward_fill (csv : CSVFile) (out cle : List (Nat × PyFloat)) (g : Nat)
    (ho : process_csv csv = some out) (hc : cleanedOf csv = .ok cle)
    (hnn : ∀ p ∈ cle, p.2 ≠ PyFloat.nan)
    (hgo : g ∈ out.map Prod.fst) (hgn : g ∉ cle.map Prod.fst) :
    ∃ ts v, (ts, v) ∈ cle ∧ ts < g ∧ (∀ u ∈ cle.map Prod.fst, u < g → u ≤ ts) ∧
      lookupV out g = some v := by
  have hnod := cleaned_keys_nodup hc
  rcases process_csv_some_elim ho with ⟨cle', hc', hg⟩
  rw [hc] at hc'
  injection hc' with he
  rcases gridFill_ok_elim hg with ⟨mn, mx, hmn, hmx, _⟩
  rw [← he] at hmn hmx hg
  have hout : out = ffill PyFloat.nan (List.insertionSort leKey (concatOf cle mn mx)) :=
    gridFill_eq hnod hmn hmx hg
  have hpw := merged_pairwise mn mx hnod
  rw [hout, ffill_map_fst] at hgo
  have hgrid : g ∈ dateRange mn mx := by
    rcases merged_keys_mem.mp hgo with h | h
    · exact absurd h hgn
    · exact h
  have hgM : (g, PyFloat.nan) ∈ List.insertionSort leKey (concatOf cle mn mx) :=
    merged_mem.mpr (concatOf_mem.mpr (Or.inr ⟨rfl, hgrid, hgn⟩))
  rcases min_entry_exists hmn with ⟨vmn, hvmn⟩
  have hmnlt : mn < g := by
    have h1 : mn ≤ g := merged_keys_ge hmn hgo
    have h2 : mn ≠ g := fun hh => hgn (hh ▸ (listMin_spec hmn).1)
    omega
  have hmnF : (mn, vmn) ∈
      ((List.insertionSort leKey (concatOf cle mn mx)).filter
        (fun p => decide (p.1 < g))).filter (fun p => decide (p.2 ≠ PyFloat.nan)) := by
    refine List.mem_filter.mpr ⟨List.mem_filter.mpr
      ⟨merged_mem.mpr (concatOf_mem.mpr (Or.inl hvmn)), ?_⟩, ?_⟩
    · rw [decide_eq_true_eq]; exact hmnlt
    · rw [decide_eq_true_eq]; exact hnn (mn, vmn) hvmn
  have hFne : ((List.insertionSort leKey (concatOf cle mn mx)).filter
      (fun p => decide (p.1 < g))).filter (fun p => decide (p.2 ≠ PyFloat.nan)) ≠ [] :=
    List.ne_nil_of_mem hmnF
  have hwv : lastNN PyFloat.nan
      ((List.insertionSort leKey (concatOf cle mn mx)).filter
        (fun p => decide (p.1 ≤ g))) =
      ((((List.insertionSort leKey (concatOf cle mn mx)).filter
        (fun p => decide (p.1 < g))).filter
          (fun p => decide (p.2 ≠ PyFloat.nan))).getLast hFne).2 := by
    rw [filter_le_split hpw hgM, lastNN_append, lastNN_cons, if_pos rfl, lastNN_nil,
        lastNN_eq_getLastD, map_snd_getLastD _ hFne]
  have hpF := List.getLast_mem hFne
  rcases List.mem_filter.mp hpF with ⟨hpL, hpnn'⟩
  rcases List.mem_filter.mp hpL with ⟨hpM, hplt'⟩
  rw [decide_eq_true_eq] at hpnn' hplt'
  have hpcle : ((((List.insertionSort leKey (concatOf cle mn mx)).filter
      (fun p => decide (p.1 < g))).filter
        (fun p => decide (p.2 ≠ PyFloat.nan))).getLast hFne) ∈ cle := by
    rcases concatOf_mem.mp (merged_mem.mp hpM) with h | ⟨hnan, _, _⟩
    · exact h
    · exact absurd hnan hpnn'
  have hpwF : List.Pairwise keyLT
      (((List.insertionSort leKey (concatOf cle mn mx)).filter
        (fun p => decide (p.1 < g))).filter (fun p => decide (p.2 ≠ PyFloat.nan))) :=
    List.Pairwise.sublist
      (List.Sublist.trans (List.filter_sublist _) (List.filter_sublist _)) hpw
  have hmax : ∀ u ∈ cle.map Prod.fst, u < g →
      u ≤ ((((List.insertionSort leKey (concatOf cle mn mx)).filter
        (fun p => decide (p.1 < g))).filter
          (fun p => decide (p.2 ≠ PyFloat.nan))).getLast hFne).1 := by
    intro u hu hult
    rcases List.mem_map.mp hu with ⟨q, hq, rfl⟩
    have hqF : q ∈ ((List.insertionSort leKey (concatOf cle mn mx)).filter
        (fun p => decide (p.1 < g))).filter (fun p => decide (p.2 ≠ PyFloat.nan)) := by
      refine List.mem_filter.mpr ⟨List.mem_filter.mpr
        ⟨merged_mem.mpr (concatOf_mem.mpr (Or.inl hq)), ?_⟩, ?_⟩
      · rw [decide_eq_true_eq]; exact hult
      · rw [decide_eq_true_eq]; exact hnn q hq
    exact pairwise_le_getLast hpwF hFne q hqF
  have hwmem : (g, lastNN PyFloat.nan
      ((List.insertionSort leKey (concatOf cle mn mx)).filter
        (fun p => decide (p.1 ≤ g)))) ∈ out := by
    rw [hout]
    exact (ffill_mem_iff hpw PyFloat.nan g _).mpr ⟨⟨PyFloat.nan, hgM⟩, rfl⟩
  rw [hwv] at hwmem
  have hnodout : (out.map Prod.fst).Nodup := by
    rw [hout, ffill_map_fst]
    exact merged_keys_nodup mn mx hnod
  refine ⟨_, _, hpcle, hplt', hmax, lookupV_of_mem hnodout hwmem⟩

/-- Witness for C7 on scenario 2: the synthesized instant 00:30:00 takes
the balance observed at 00:00:00. -/
theorem C7_forward_fill_witness :
    process_csv csvGap = some outGap ∧
    cleanedOf csvGap = .ok
      [(epochSecs 2024 1 1 0 0 0, PyFloat.num 1000),
       (epochSecs 2024 1 1 0 45 0, PyFloat.num 2000)] ∧
    epochSecs 2024 1 1 0 30 0 ∈ outGap.map Prod.fst ∧
    epochSecs 2024 1 1 0 30 0 ∉
      ([(epochSecs 2024 1 1 0 0 0, PyFloat.num 1000),
        (epochSecs 2024 1 1 0 45 0, PyFloat.num 2000)].map Prod.fst) ∧
    (∃ ts v, (ts, v) ∈
        [(epochSecs 2024 1 1 0 0 0, PyFloat.num 1000),
         (epochSecs 2024 1 1 0 45 0, PyFloat.num 2000)] ∧
      ts < epochSecs 2024 1 1 0 30 0 ∧
      (∀ u ∈ ([(epochSecs 2024 1 1 0 0 0, PyFloat.num 1000),
               (epochSecs 2024 1 1 0 45 0, PyFloat.num 2000)].map Prod.fst),
        u < epochSecs 2024 1 1 0 30 0 → u ≤ ts) ∧
      lookupV outGap (epochSecs 2024 1 1 0 30 0) = some v) := by
  refine ⟨by decide, by decide, by decide, by decide, ?_⟩
  exact C7_forward_fill csvGap outGap
    [(epochSecs 2024 1 1 0 0 0, PyFloat.num 1000),
     (epochSecs 2024 1 1 0 45 0, PyFloat.num 2000)]
    (epochSecs 2024 1 1 0 30 0)
    (by decide) (by decide)
    (by intro p hp; rcases List.mem_cons.mp hp with h1 | h2
        · rw [h1]; decide
        · rcases List.mem_cons.mp h2 with h3 | h4
          · rw [h3]; decide
          · exact absurd h4 (List.not_mem_nil p))
    (by decide) (by decide)

end DataProcessor
